import Mathlib

set_option maxRecDepth 40000
set_option maxHeartbeats 4000000

/-!
Shallow embedding of the sudoku solver from `src/main.go`.

A Go `Cell` is a `uint16` bitmask of pencil marks (bit `d-1` set ⇔ digit `d`
is a candidate).  We embed cells as `ℕ`; every cell arising in the program is
`< 512` (nine candidate bits), and the 16-bit complement used by `Cell.Drop`
is made explicit with the mask `65535`.  A Go `Board` is a flat array of 81
cells in row-major order; we embed it as a `List ℕ` of length 81.

The mutating recursion of `Board.Set` and `Board.Solve` is embedded with an
explicit fuel parameter: `setFuel fuel b i j d = none` means the execution
was cut off before finishing, `some b'` means the Go code terminates with
final board `b'`.  Fuel `730` (resp. `82`) is proved sufficient below
(`setFuel_total`, claim C7), so the `Option` never hides behaviour on
well-formed boards.
-/

/-- Go `Cell.Clear`: remove all pencil marks (`*c = 0`). -/
def cellClear (_c : ℕ) : ℕ := 0

/-- Go `Cell.Set`: add pencil mark `d` (`*c |= 1 << (d-1)`). -/
def cellSet (c d : ℕ) : ℕ := c ||| (1 <<< (d - 1))

/-- Go `Cell.Drop`: remove pencil mark `d` (`*c &= ^(1 << (d-1))` on a
`uint16`, i.e. conjunction with the 16-bit complement of the mask). -/
def cellDrop (c d : ℕ) : ℕ := c &&& (65535 ^^^ (1 <<< (d - 1)))

/-- Go `Cell.IsSet`: membership test of pencil mark `d`. -/
def isSetB (c d : ℕ) : Bool := c &&& (1 <<< (d - 1)) != 0

/-- Go `Cell.Single`: `c&(c-1) == 0 && c != 0` (exactly one bit set). -/
def singleB (c : ℕ) : Bool := (c &&& (c - 1) == 0) && (c != 0)

/-- Trailing-zero count of a 16-bit value, with Go's convention
`bits.TrailingZeros(0) = 64`.  The fuel `16` covers every `uint16`. -/
def tzF : ℕ → ℕ → ℕ
  | 0, _ => 64
  | n + 1, c => if c = 0 then 64 else if c % 2 = 1 then 0 else tzF n (c / 2) + 1

/-- Go `Cell.Digit`: `1 + bits.TrailingZeros(c)`. -/
def digitC (c : ℕ) : ℕ := 1 + tzF 16 c

/-- One step of Go `Cell.Digits`: the loop yields `c.Digit()` and then clears
the lowest one bit by `c ^= c & -c` (two's complement on 16 bits). -/
def digitsF : ℕ → ℕ → List ℕ
  | 0, _ => []
  | n + 1, c => if c = 0 then [] else digitC c :: digitsF n (c ^^^ (c &&& (65536 - c)))

/-- Go `Cell.Digits` collected into a list (ascending; 16 iterations cover
every `uint16`). -/
def digitsL (c : ℕ) : List ℕ := digitsF 16 c

/-- Population count of a 16-bit value (Go `bits.OnesCount`). -/
def countF : ℕ → ℕ → ℕ
  | 0, _ => 0
  | n + 1, c => if c = 0 then 0 else c % 2 + countF n (c / 2)

/-- Go `Cell.Count`: number of pencil marks. -/
def countC (c : ℕ) : ℕ := countF 16 c

/-- A sudoku board: 81 cells, row-major (`b[i*9+j]` is row `i`, column `j`). -/
abbrev Board := List ℕ

/-- Go `EmptyBoard()`: every cell full (`All() = 1<<9 - 1 = 511`). -/
def emptyBoard : Board := List.replicate 81 511

/-- Go `Board.At(i,j)` dereferenced: the cell of row `i`, column `j`. -/
def cellAt (b : Board) (i j : ℕ) : ℕ := b.getD (9 * i + j) 0

/-- Writing through the pointer returned by Go `Board.At(i,j)`. -/
def writeCell (b : Board) (i j : ℕ) (v : ℕ) : Board := b.set (9 * i + j) v

/-- The row-`i` peers visited by `Board.Set`'s first loop: Go iterates
`Board.Row(i)` over all columns and skips `jj == j` by the guard `j != jj`. -/
def rowPeers (i j : ℕ) : List (ℕ × ℕ) :=
  (List.range 9).filterMap (fun jj => if j = jj then none else some (i, jj))

/-- The column-`j` peers visited by `Board.Set`'s second loop. -/
def colPeers (i j : ℕ) : List (ℕ × ℕ) :=
  (List.range 9).filterMap (fun ii => if i = ii then none else some (ii, j))

/-- The box peers visited by `Board.Set`'s third loop: Go `Board.Box(i,j)`
iterates the 3×3 box of `(i,j)` in row-major order, skipping `(i,j)` itself. -/
def boxPeers (i j : ℕ) : List (ℕ × ℕ) :=
  ((List.range 3).flatMap (fun a =>
    (List.range 3).map (fun bb => (i / 3 * 3 + a, j / 3 * 3 + bb)))).filter
      (fun p => p ≠ (i, j))

/-- All positions processed by one `Board.Set` call, in source order:
row peers, then column peers, then box peers. -/
def peerList (i j : ℕ) : List (ℕ × ℕ) := rowPeers i j ++ colPeers i j ++ boxPeers i j

/-- The peer loop body of Go `Board.Set`: for each peer, if it allows `d`,
drop `d` (`c.IsSet(d) && c.Drop(d).Single()` drops unconditionally once the
membership test passes) and, when the peer becomes single, recursively
resolve it via the function `recur` (instantiated with `setFuel n`). -/
def goPeers (recur : Board → ℕ → ℕ → ℕ → Option Board) (d : ℕ) :
    Board → List (ℕ × ℕ) → Option Board
  | b, [] => some b
  | b, (p, q) :: rest =>
    let c := cellAt b p q
    if isSetB c d then
      let c' := cellDrop c d
      let b' := writeCell b p q c'
      if singleB c' then
        match recur b' p q (digitC c') with
        | none => none
        | some b'' => goPeers recur d b'' rest
      else goPeers recur d b' rest
    else goPeers recur d b rest

/-- Go `Board.Set(i,j,d)` with fuel: first `b.At(i,j).Clear().Set(d)`, then
the three peer loops with recursive resolution of forced singles. -/
def setFuel : ℕ → Board → ℕ → ℕ → ℕ → Option Board
  | 0, _, _, _, _ => none
  | n + 1, b, i, j, d =>
    goPeers (setFuel n) d (writeCell b i j (cellSet (cellClear (cellAt b i j)) d))
      (peerList i j)

/-- Go `Board.Set` as a total function; fuel 730 is sufficient on every
well-formed board (`setFuel_total`). -/
def SetB (b : Board) (i j d : ℕ) : Board := (setFuel 730 b i j d).getD b

/-- The scan loop of Go `Board.Lowest`: accumulator `(lowest, i, j, ok)`
starting from `(Size+1, 0, 0, false)`; a cell updates the accumulator iff
`1 < c && c < lowest`. -/
def lowGo : Board → List (ℕ × ℕ) → ℕ × ℕ × ℕ × Bool → ℕ × ℕ × ℕ × Bool
  | _, [], acc => acc
  | b, (ii, jj) :: rest, (low, i, j, ok) =>
    let c := countC (cellAt b ii jj)
    if 1 < c ∧ c < low then lowGo b rest (c, ii, jj, true)
    else lowGo b rest (low, i, j, ok)

/-- All 81 positions in the row-major order scanned by the nested loops of
`Board.Lowest` and `Board.Solved`. -/
def allPos : List (ℕ × ℕ) :=
  (List.range 9).flatMap (fun i => (List.range 9).map (fun j => (i, j)))

/-- Go `Board.Lowest`: coordinates of the first cell attaining the minimal
candidate count `> 1`, as an `Option` (`none` ⇔ Go's `ok = false`). -/
def lowestF (b : Board) : Option (ℕ × ℕ) :=
  match lowGo b allPos (10, 0, 0, false) with
  | (_, i, j, ok) => if ok then some (i, j) else none

/-- Go `Board.Solved`: every cell is single. -/
def solvedB (b : Board) : Bool := allPos.all (fun p => singleB (cellAt b p.1 p.2))

/-- The candidate loop of Go `Board.Solve`: try each digit of the chosen
cell in ascending order; on failure restore the board copy (`b` itself in
this value-passing embedding) and continue. -/
def tryDigits (recur : Board → Option (Bool × Board)) (b : Board) (i j : ℕ) :
    List ℕ → Option (Bool × Board)
  | [] => some (false, b)
  | d :: ds =>
    match setFuel 730 b i j d with
    | none => none
    | some b1 =>
      match recur b1 with
      | none => none
      | some (true, b2) => some (true, b2)
      | some (false, _) => tryDigits recur b i j ds

/-- Go `Board.Solve` with fuel: the result pairs the returned boolean with
the final state of the board (Go mutates in place). -/
def solveFuel : ℕ → Board → Option (Bool × Board)
  | 0, _ => none
  | n + 1, b =>
    match lowestF b with
    | none => some (solvedB b, b)
    | some (i, j) => tryDigits (solveFuel n) b i j (digitsL (cellAt b i j))

/-- Applying a list of `(i, j, d)` seed assignments to the empty board via
`Board.Set`, as done by `main`. -/
def applySeeds (seeds : List (ℕ × ℕ × ℕ)) : Board :=
  seeds.foldl (fun b s => SetB b s.1 s.2.1 s.2.2) emptyBoard

/-- The 21 hardcoded seed assignments of `main` (the "world's hardest
sudoku"). -/
def hardSeeds : List (ℕ × ℕ × ℕ) :=
  [(0,0,8),(1,2,3),(1,3,6),(2,1,7),(2,4,9),(2,6,2),(3,1,5),(3,5,7),(4,4,4),
   (4,5,5),(4,6,7),(5,3,1),(5,7,3),(6,2,1),(6,7,6),(6,8,8),(7,2,8),(7,3,5),
   (7,7,1),(8,1,9),(8,6,4)]

/-!  A second formulation of the assignment operation, following the words of
the specification instead of the source: the target cell is replaced by
exactly the singleton mask of `d`, a peer's forcedness is detected by its
candidate count becoming one, and the forced digit is the head of the peer's
candidate sequence ("its single remaining digit").  Claim C1 proves it equal
to `setFuel`. -/

/-- Spec-worded peer pass: remove `d` from each peer that allows it; if the
removal leaves exactly one candidate, recursively assign that candidate. -/
def specPeers (recur : Board → ℕ → ℕ → ℕ → Option Board) (d : ℕ) :
    Board → List (ℕ × ℕ) → Option Board
  | b, [] => some b
  | b, (p, q) :: rest =>
    let c := cellAt b p q
    if isSetB c d then
      let c' := cellDrop c d
      let b' := writeCell b p q c'
      if countC c' = 1 then
        match recur b' p q ((digitsL c').headD 0) with
        | none => none
        | some b'' => specPeers recur d b'' rest
      else specPeers recur d b' rest
    else specPeers recur d b rest

/-- Spec-worded assignment: replace the candidate set of `(i,j)` with exactly
`{d}`, then propagate to row, column and box peers. -/
def assignSpec : ℕ → Board → ℕ → ℕ → ℕ → Option Board
  | 0, _, _, _, _ => none
  | n + 1, b, i, j, d =>
    specPeers (assignSpec n) d (writeCell b i j (1 <<< (d - 1))) (peerList i j)

/-! ### Derived predicates used by the claims -/

/-- Well-formed board: 81 cells, each a 9-bit mask. -/
def wfB (b : Board) : Prop :=
  b.length = 81 ∧ ∀ i j, i < 9 → j < 9 → cellAt b i j < 512

/-- Candidate-set inclusion of 9-bit cells. -/
def subC (c c' : ℕ) : Prop :=
  ∀ d, d < 10 → 1 ≤ d → isSetB c d = true → isSetB c' d = true

/-- Two distinct positions share a row, a column, or a 3×3 box. -/
def sharesUnit (p q : ℕ × ℕ) : Prop :=
  p.1 = q.1 ∨ p.2 = q.2 ∨ (p.1 / 3 = q.1 / 3 ∧ p.2 / 3 = q.2 / 3)

/-- No two distinct peers are both single with the same digit (the sudoku
invariant of claim C3). -/
def noPeerDup (b : Board) : Prop :=
  ∀ p q : ℕ × ℕ, p.1 < 9 → p.2 < 9 → q.1 < 9 → q.2 < 9 → p ≠ q → sharesUnit p q →
    singleB (cellAt b p.1 p.2) = true → singleB (cellAt b q.1 q.2) = true →
    digitC (cellAt b p.1 p.2) ≠ digitC (cellAt b q.1 q.2)

/-- Every single cell has its digit eliminated from all of its peers: the
strengthened propagation invariant maintained by `Board.Set`. -/
def Propagated (b : Board) : Prop :=
  ∀ p : ℕ × ℕ, p.1 < 9 → p.2 < 9 → singleB (cellAt b p.1 p.2) = true →
    ∀ q ∈ peerList p.1 p.2, isSetB (cellAt b q.1 q.2) (digitC (cellAt b p.1 p.2)) = false

/-- A total digit assignment (a solution grid) that respects the sudoku
rules. -/
def ValidG (g : ℕ × ℕ → ℕ) : Prop :=
  (∀ p : ℕ × ℕ, 1 ≤ g p ∧ g p ≤ 9) ∧
  ∀ p : ℕ × ℕ, p.1 < 9 → p.2 < 9 → ∀ q ∈ peerList p.1 p.2, g p ≠ g q

/-- The board still admits the solution grid `g`: every cell keeps its
`g`-digit among its candidates. -/
def admits (g : ℕ × ℕ → ℕ) (b : Board) : Prop :=
  ∀ p : ℕ × ℕ, p.1 < 9 → p.2 < 9 → isSetB (cellAt b p.1 p.2) (g p) = true

/-- Total pencil-mark count of the board (the termination measure of the
propagation recursion; at most 729). -/
def totB (b : Board) : ℕ := (allPos.map (fun p => countC (cellAt b p.1 p.2))).sum

/-- Number of unresolved cells (candidate count above one): bounds the
guessing recursion depth of `Board.Solve`. -/
def unres (b : Board) : ℕ :=
  (allPos.filter (fun p => 1 < countC (cellAt b p.1 p.2))).length

/-- Strict row-major (lexicographic) order on positions. -/
def lexLT (p q : ℕ × ℕ) : Prop := p.1 < q.1 ∨ (p.1 = q.1 ∧ p.2 < q.2)

/-- The nine positions of row `i`. -/
def rowList (i : ℕ) : List (ℕ × ℕ) := (List.range 9).map (fun j => (i, j))

/-- The nine positions of column `j`. -/
def colList (j : ℕ) : List (ℕ × ℕ) := (List.range 9).map (fun i => (i, j))

/-- The nine positions of the box with coordinates `(bi, bj)`. -/
def boxList (bi bj : ℕ) : List (ℕ × ℕ) :=
  (List.range 3).flatMap (fun a => (List.range 3).map (fun bb => (3 * bi + a, 3 * bj + bb)))

/-- A list of nine positions holds each digit 1..9 exactly once on `b`. -/
def unitExact (b : Board) (ps : List (ℕ × ℕ)) : Prop :=
  ∀ d, 1 ≤ d → d ≤ 9 → (ps.filter (fun p => digitC (cellAt b p.1 p.2) = d)).length = 1

/-- Every row, column and box of `b` holds each digit 1..9 exactly once. -/
def validB (b : Board) : Prop :=
  (∀ i, i < 9 → unitExact b (rowList i)) ∧
  (∀ j, j < 9 → unitExact b (colList j)) ∧
  (∀ bi bj, bi < 3 → bj < 3 → unitExact b (boxList bi bj))

/-! ### Cell-level facts, decided over the 9-bit domain -/

theorem cellDrop_le (c d : ℕ) : cellDrop c d ≤ c := Nat.and_le_left

theorem cellDrop_lt_512 {c : ℕ} (h : c < 512) (d : ℕ) : cellDrop c d < 512 :=
  Nat.lt_of_le_of_lt (cellDrop_le c d) h

theorem cellSet_clear (c d : ℕ) : cellSet (cellClear c) d = 1 <<< (d - 1) := by
  simp [cellSet, cellClear, Nat.zero_or]

theorem isSetB_drop : ∀ c < 512, ∀ d < 10, ∀ f < 10, 1 ≤ d → 1 ≤ f →
    isSetB (cellDrop c d) f = (isSetB c f && !(f == d)) := by decide

theorem drop_count : ∀ c < 512, ∀ d < 10, 1 ≤ d → isSetB c d = true →
    countC (cellDrop c d) + 1 = countC c := by decide

theorem single_eq_shift : ∀ c < 512, singleB c = true → c = 1 <<< (digitC c - 1) := by
  decide

theorem single_digit_bounds : ∀ c < 512, singleB c = true →
    1 ≤ digitC c ∧ digitC c ≤ 9 := by decide

theorem single_isSet_iff : ∀ c < 512, ∀ f < 10, 1 ≤ f → singleB c = true →
    (isSetB c f = true ↔ f = digitC c) := by decide

theorem shift_lt_512 : ∀ d < 10, 1 ≤ d → 1 <<< (d - 1) < 512 := by decide

theorem singleB_shift : ∀ d < 10, 1 ≤ d → singleB (1 <<< (d - 1)) = true := by decide

theorem digitC_shift : ∀ d < 10, 1 ≤ d → digitC (1 <<< (d - 1)) = d := by decide

theorem isSetB_shift : ∀ d < 10, ∀ f < 10, 1 ≤ d → 1 ≤ f →
    (isSetB (1 <<< (d - 1)) f = true ↔ f = d) := by decide

theorem countC_le_9 : ∀ c < 512, countC c ≤ 9 := by decide

theorem single_iff_count : ∀ c < 512, (singleB c = true ↔ countC c = 1) := by decide

theorem single_headD : ∀ c < 512, singleB c = true →
    (digitsL c).headD 0 = digitC c := by decide

theorem mem_digitsL : ∀ c < 512, ∀ d < 10, 1 ≤ d →
    (d ∈ digitsL c ↔ isSetB c d = true) := by decide

theorem digitsL_range : ∀ c < 512, ∀ d ∈ digitsL c, 1 ≤ d ∧ d ≤ 9 := by decide

theorem subC_shift : ∀ c < 512, ∀ d < 10, 1 ≤ d →
    ((List.range' 1 9).all (fun f => !(isSetB c f) || isSetB (1 <<< (d - 1)) f) = true) →
    c = 1 <<< (d - 1) ∨ c = 0 := by decide

theorem subC_cases {c d : ℕ} (hc : c < 512) (hd : d < 10) (h1 : 1 ≤ d)
    (hs : subC c (1 <<< (d - 1))) : c = 1 <<< (d - 1) ∨ c = 0 := by
  refine subC_shift c hc d hd h1 ?_
  rw [List.all_eq_true]
  intro f hf
  have hm := List.mem_range'_1.mp hf
  cases hfs : isSetB c f with
  | false => simp
  | true => simp [hs f (by omega) (by omega) hfs]

/-! ### Board access lemmas -/

theorem length_writeCell (b : Board) (i j v : ℕ) :
    (writeCell b i j v).length = b.length := List.length_set ..

theorem cellAt_writeCell_self {b : Board} {i j : ℕ} (h : 9 * i + j < b.length) (v : ℕ) :
    cellAt (writeCell b i j v) i j = v := by
  simp [cellAt, writeCell, List.getD_eq_getElem?_getD, List.getElem?_set_self h]

theorem cellAt_writeCell_ne {b : Board} {i j p q : ℕ} (hne : 9 * i + j ≠ 9 * p + q) (v : ℕ) :
    cellAt (writeCell b i j v) p q = cellAt b p q := by
  simp [cellAt, writeCell, List.getD_eq_getElem?_getD, List.getElem?_set_ne hne]

theorem idx_inj {i j p q : ℕ} (hj : j < 9) (hq : q < 9)
    (h : 9 * i + j = 9 * p + q) : i = p ∧ j = q := by omega

theorem idx_ne {i j p q : ℕ} (hj : j < 9) (hq : q < 9)
    (h : (i, j) ≠ (p, q)) : 9 * i + j ≠ 9 * p + q := by
  intro he
  exact h (by rcases idx_inj hj hq he with ⟨h1, h2⟩; simp [h1, h2])

theorem writeCell_self {b : Board} {i j v : ℕ} (h : 9 * i + j < b.length)
    (hv : cellAt b i j = v) : writeCell b i j v = b := by
  apply List.ext_getElem?
  intro n
  by_cases hn : n = 9 * i + j
  · subst hn
    rw [writeCell, List.getElem?_set_self h, List.getElem?_eq_getElem h]
    have : b[9 * i + j] = cellAt b i j := by
      simp [cellAt, List.getD_eq_getElem?_getD, List.getElem?_eq_getElem h]
    simp [this, hv]
  · exact List.getElem?_set_ne (fun he => hn he.symm) ..

theorem wfB_writeCell {b : Board} (hwf : wfB b) {i j v : ℕ} (hi : i < 9) (hj : j < 9)
    (hv : v < 512) : wfB (writeCell b i j v) := by
  obtain ⟨hlen, hcells⟩ := hwf
  refine ⟨by rw [length_writeCell, hlen], ?_⟩
  intro p q hp hq
  by_cases hpq : (i, j) = (p, q)
  · injection hpq with h1 h2
    subst h1; subst h2
    rw [cellAt_writeCell_self (by omega) v]
    exact hv
  · rw [cellAt_writeCell_ne (idx_ne hj hq hpq) v]
    exact hcells p q hp hq

/-! ### Position lemmas -/

theorem mem_allPos {p : ℕ × ℕ} : p ∈ allPos ↔ p.1 < 9 ∧ p.2 < 9 := by
  obtain ⟨i, j⟩ := p
  simp only [allPos, List.mem_flatMap, List.mem_map, List.mem_range]
  constructor
  · rintro ⟨a, ha, b, hb, he⟩
    injection he with h1 h2
    subst h1; subst h2; exact ⟨ha, hb⟩
  · rintro ⟨h1, h2⟩
    exact ⟨i, h1, j, h2, rfl⟩

theorem mem_rowPeers {i j p q : ℕ} :
    (p, q) ∈ rowPeers i j ↔ p = i ∧ q < 9 ∧ q ≠ j := by
  simp only [rowPeers, List.mem_filterMap, List.mem_range]
  constructor
  · rintro ⟨jj, hjj, he⟩
    by_cases h : j = jj
    · simp [h] at he
    · simp only [if_neg h] at he
      injection he with h1
      injection h1 with h1 h2
      subst h1; subst h2
      exact ⟨rfl, hjj, fun he' => h he'.symm⟩
  · rintro ⟨h1, h2, h3⟩
    subst h1
    exact ⟨q, h2, by rw [if_neg (fun he => h3 he.symm)]⟩

theorem mem_colPeers {i j p q : ℕ} :
    (p, q) ∈ colPeers i j ↔ q = j ∧ p < 9 ∧ p ≠ i := by
  simp only [colPeers, List.mem_filterMap, List.mem_range]
  constructor
  · rintro ⟨ii, hii, he⟩
    by_cases h : i = ii
    · simp [h] at he
    · simp only [if_neg h] at he
      injection he with h1
      injection h1 with h1 h2
      subst h1; subst h2
      exact ⟨rfl, hii, fun he' => h he'.symm⟩
  · rintro ⟨h1, h2, h3⟩
    subst h1
    exact ⟨p, h2, by rw [if_neg (fun he => h3 he.symm)]⟩

theorem mem_boxPeers {i j p q : ℕ} (hi : i < 9) (hj : j < 9) :
    (p, q) ∈ boxPeers i j ↔
      (p, q) ≠ (i, j) ∧ p / 3 = i / 3 ∧ q / 3 = j / 3 ∧ p < 9 ∧ q < 9 := by
  simp only [boxPeers, List.mem_filter, List.mem_flatMap, List.mem_map, List.mem_range]
  constructor
  · rintro ⟨⟨a, ha, bb, hbb, he⟩, hne⟩
    injection he with h1 h2
    subst h1; subst h2
    exact ⟨of_decide_eq_true hne, by omega, by omega, by omega, by omega⟩
  · rintro ⟨hne, h1, h2, h3, h4⟩
    refine ⟨⟨p % 3, by omega, q % 3, by omega, ?_⟩, decide_eq_true hne⟩
    have : i / 3 * 3 + p % 3 = p := by omega
    have h5 : j / 3 * 3 + q % 3 = q := by omega
    simp [this, h5]

theorem mem_peerList {i j p q : ℕ} (hi : i < 9) (hj : j < 9) :
    (p, q) ∈ peerList i j ↔
      p < 9 ∧ q < 9 ∧ (p, q) ≠ (i, j) ∧ sharesUnit (p, q) (i, j) := by
  simp only [peerList, List.mem_append, mem_rowPeers, mem_colPeers, mem_boxPeers hi hj,
    sharesUnit]
  constructor
  · rintro ((⟨h1, h2, h3⟩ | ⟨h1, h2, h3⟩) | ⟨h1, h2, h3, h4, h5⟩)
    · subst h1
      exact ⟨hi, h2, by simp [h3], Or.inl rfl⟩
    · subst h1
      exact ⟨h2, hj, by simp [h3], Or.inr (Or.inl rfl)⟩
    · exact ⟨h4, h5, h1, Or.inr (Or.inr ⟨h2, h3⟩)⟩
  · rintro ⟨h1, h2, h3, (h4 | h4 | h4)⟩
    · exact Or.inl (Or.inl ⟨h4, h2, fun he => h3 (by simp [h4, he])⟩)
    · exact Or.inl (Or.inr ⟨h4, h1, fun he => h3 (by simp [h4, he])⟩)
    · exact Or.inr ⟨h3, h4.1, h4.2, h1, h2⟩

theorem peerList_symm {i j p q : ℕ} (hi : i < 9) (hj : j < 9)
    (h : (p, q) ∈ peerList i j) : (i, j) ∈ peerList p q := by
  rw [mem_peerList hi hj] at h
  obtain ⟨h1, h2, h3, h4⟩ := h
  rw [mem_peerList h1 h2]
  refine ⟨hi, hj, fun he => h3 ?_, ?_⟩
  · injection he with e1 e2
    simp [e1, e2]
  · rcases h4 with h4 | h4 | h4
    · exact Or.inl h4.symm
    · exact Or.inr (Or.inl h4.symm)
    · exact Or.inr (Or.inr ⟨h4.1.symm, h4.2.symm⟩)

theorem peerList_bounds {i j : ℕ} (hi : i < 9) (hj : j < 9) :
    ∀ r ∈ peerList i j, r.1 < 9 ∧ r.2 < 9 := by
  intro r hr
  obtain ⟨p, q⟩ := r
  rw [mem_peerList hi hj] at hr
  exact ⟨hr.1, hr.2.1⟩

/-- Pointwise candidate-set inclusion of boards. -/
def SubB (y b : Board) : Prop :=
  ∀ i j, i < 9 → j < 9 → subC (cellAt y i j) (cellAt b i j)

/-- All peers of `p` lack the digit of the (single) cell at `p`. -/
def APL (b : Board) (p : ℕ × ℕ) : Prop :=
  ∀ q ∈ peerList p.1 p.2, isSetB (cellAt b q.1 q.2) (digitC (cellAt b p.1 p.2)) = false

theorem goPeers_nil (recur : Board → ℕ → ℕ → ℕ → Option Board) (d : ℕ) (b : Board) :
    goPeers recur d b [] = some b := rfl

theorem goPeers_cons (recur : Board → ℕ → ℕ → ℕ → Option Board) (d : ℕ) (b : Board)
    (p q : ℕ) (rest : List (ℕ × ℕ)) :
    goPeers recur d b ((p, q) :: rest) =
      if isSetB (cellAt b p q) d then
        if singleB (cellDrop (cellAt b p q) d) then
          match recur (writeCell b p q (cellDrop (cellAt b p q) d)) p q
              (digitC (cellDrop (cellAt b p q) d)) with
          | none => none
          | some b'' => goPeers recur d b'' rest
        else goPeers recur d (writeCell b p q (cellDrop (cellAt b p q) d)) rest
      else goPeers recur d b rest := rfl

theorem setFuel_zero (b : Board) (i j d : ℕ) : setFuel 0 b i j d = none := rfl

theorem setFuel_succ (n : ℕ) (b : Board) (i j d : ℕ) :
    setFuel (n + 1) b i j d =
      goPeers (setFuel n) d (writeCell b i j (cellSet (cellClear (cellAt b i j)) d))
        (peerList i j) := rfl

theorem subC_refl (c : ℕ) : subC c c := fun _ _ _ h => h

theorem subC_trans {a b c : ℕ} (h1 : subC a b) (h2 : subC b c) : subC a c :=
  fun d hd h1' hs => h2 d hd h1' (h1 d hd h1' hs)

theorem subC_of_eq {a b : ℕ} (h : a = b) : subC a b := h ▸ subC_refl a

theorem subC_false {c c' : ℕ} (h : subC c c') {f : ℕ} (hf : f < 10) (h1 : 1 ≤ f)
    (hfalse : isSetB c' f = false) : isSetB c f = false := by
  cases hcf : isSetB c f with
  | false => rfl
  | true => rw [h f hf h1 hcf] at hfalse; exact hfalse.symm ▸ rfl

theorem isSetB_drop_self : ∀ c < 512, ∀ d < 10, isSetB (cellDrop c d) d = false := by
  decide

theorem isSetB_drop_mono : ∀ c < 512, ∀ dd < 10, ∀ f < 10,
    isSetB (cellDrop c dd) f = true → isSetB c f = true := by decide

theorem subC_dropC {c d : ℕ} (hc : c < 512) (hd : d < 10) : subC (cellDrop c d) c :=
  fun f hf _ hs => isSetB_drop_mono c hc d hd f hf hs

theorem APL_shrink {y z : Board} {p : ℕ × ℕ} (hp1 : p.1 < 9) (hp2 : p.2 < 9)
    (hsub : SubB y z) (heq : cellAt y p.1 p.2 = cellAt z p.1 p.2)
    (hwfz : ∀ i j, i < 9 → j < 9 → cellAt z i j < 512)
    (hsingle : singleB (cellAt z p.1 p.2) = true)
    (h : APL z p) : APL y p := by
  intro q hq
  have hqb := peerList_bounds hp1 hp2 q hq
  have hd := single_digit_bounds _ (hwfz p.1 p.2 hp1 hp2) hsingle
  rw [heq]
  exact subC_false (hsub q.1 q.2 hqb.1 hqb.2) (by omega) hd.1 (h q hq)

/-- Post-condition of the peer-processing loop `goPeers (setFuel n) d b l`:
only removals happen (except cascaded self-rewrites), the processed peers
lack `d`, every single cell either had its digit fully propagated or is
untouched, well-formedness is kept, and any admissible solution grid whose
digits avoid `d` on `l` stays admissible. -/
structure GoPost (b y : Board) (d : ℕ) (l : List (ℕ × ℕ)) : Prop where
  len : y.length = 81
  shrink : SubB y b
  dropped : ∀ r ∈ l, isSetB (cellAt y r.1 r.2) d = false
  singles : ∀ p : ℕ × ℕ, p.1 < 9 → p.2 < 9 → singleB (cellAt y p.1 p.2) = true →
    APL y p ∨ cellAt y p.1 p.2 = cellAt b p.1 p.2
  cwf : ∀ i j, i < 9 → j < 9 → cellAt y i j < 512
  keep : ∀ g, ValidG g → (∀ r ∈ l, g r ≠ d) → admits g b → admits g y

theorem goPost_main : ∀ n : ℕ, ∀ l : List (ℕ × ℕ), ∀ b d y,
    b.length = 81 → (∀ i j, i < 9 → j < 9 → cellAt b i j < 512) →
    1 ≤ d → d ≤ 9 → (∀ r ∈ l, r.1 < 9 ∧ r.2 < 9) →
    goPeers (setFuel n) d b l = some y → GoPost b y d l := by
  intro n
  induction n using Nat.strong_induction_on with
  | _ n IH =>
  intro l
  induction l with
  | nil =>
    intro b d y hlen hcells hd1 hd9 _ heq
    rw [goPeers_nil] at heq
    injection heq with h
    subst h
    exact ⟨hlen, fun i j _ _ => subC_refl _, by simp,
      fun p _ _ _ => Or.inr rfl, hcells, fun g _ _ ha => ha⟩
  | cons r rest IHl =>
    obtain ⟨p, q⟩ := r
    intro b d y hlen hcells hd1 hd9 hbounds heq
    have hp9 : p < 9 := (hbounds (p, q) (List.mem_cons_self _ _)).1
    have hq9 : q < 9 := (hbounds (p, q) (List.mem_cons_self _ _)).2
    have hbounds' : ∀ r ∈ rest, r.1 < 9 ∧ r.2 < 9 :=
      fun r hr => hbounds r (List.mem_cons_of_mem _ hr)
    have hcpq : cellAt b p q < 512 := hcells p q hp9 hq9
    rw [goPeers_cons] at heq
    by_cases hs : isSetB (cellAt b p q) d = true
    case neg =>
      rw [if_neg (by simpa using hs)] at heq
      have hrest := IHl b d y hlen hcells hd1 hd9 hbounds' heq
      refine ⟨hrest.len, hrest.shrink, ?_, hrest.singles, hrest.cwf, ?_⟩
      · intro r hr
        rcases List.mem_cons.mp hr with hr | hr
        · subst hr
          exact subC_false (hrest.shrink p q hp9 hq9) (by omega) hd1
            (Bool.not_eq_true _ ▸ hs)
        · exact hrest.dropped r hr
      · intro g hg hne hadm
        exact hrest.keep g hg (fun r hr => hne r (List.mem_cons_of_mem _ hr)) hadm
    case pos =>
      rw [if_pos hs] at heq
      have hidx : 9 * p + q < b.length := by rw [hlen]; omega
      have hc'lt : cellDrop (cellAt b p q) d < 512 := cellDrop_lt_512 hcpq d
      have hb1len : (writeCell b p q (cellDrop (cellAt b p q) d)).length = 81 := by
        rw [length_writeCell, hlen]
      have hb1at : cellAt (writeCell b p q (cellDrop (cellAt b p q) d)) p q =
          cellDrop (cellAt b p q) d := cellAt_writeCell_self hidx _
      have hb1ne : ∀ i j, i < 9 → j < 9 → (i, j) ≠ (p, q) →
          cellAt (writeCell b p q (cellDrop (cellAt b p q) d)) i j = cellAt b i j := by
        intro i j hi hj hne
        exact cellAt_writeCell_ne (idx_ne hq9 hj (Ne.symm hne)) _
      have hb1cells : ∀ i j, i < 9 → j < 9 →
          cellAt (writeCell b p q (cellDrop (cellAt b p q) d)) i j < 512 := by
        intro i j hi hj
        by_cases hij : (i, j) = (p, q)
        · injection hij with e1 e2
          subst e1; subst e2
          rw [hb1at]; exact hc'lt
        · rw [hb1ne i j hi hj hij]; exact hcells i j hi hj
      have hshrink1 : SubB (writeCell b p q (cellDrop (cellAt b p q) d)) b := by
        intro i j hi hj
        by_cases hij : (i, j) = (p, q)
        · injection hij with e1 e2
          subst e1; subst e2
          rw [hb1at]
          exact subC_dropC hcpq (by omega)
        · exact subC_of_eq (hb1ne i j hi hj hij)
      have hadm1 : ∀ g, ValidG g → g (p, q) ≠ d → admits g b →
          admits g (writeCell b p q (cellDrop (cellAt b p q) d)) := by
        intro g hg hgne hadm p0 hp0 hq0
        by_cases hij : p0 = (p, q)
        · rw [hij, hb1at]
          have hgb := (hg.1 (p, q))
          rw [isSetB_drop (cellAt b p q) hcpq d (by omega) (g (p, q)) (by omega) hd1 hgb.1]
          have := hadm (p, q) hp9 hq9
          simp [this, hgne]
        · rw [show cellAt (writeCell b p q (cellDrop (cellAt b p q) d)) p0.1 p0.2 =
              cellAt b p0.1 p0.2 from hb1ne p0.1 p0.2 hp0 hq0 hij]
          exact hadm p0 hp0 hq0
      by_cases hsng : singleB (cellDrop (cellAt b p q) d) = true
      case neg =>
        rw [if_neg (by simpa using hsng)] at heq
        have hrest := IHl _ d y hb1len hb1cells hd1 hd9 hbounds' heq
        refine ⟨hrest.len, ?_, ?_, ?_, hrest.cwf, ?_⟩
        · intro i j hi hj
          exact subC_trans (hrest.shrink i j hi hj) (hshrink1 i j hi hj)
        · intro r hr
          rcases List.mem_cons.mp hr with hr | hr
          · subst hr
            refine subC_false (hrest.shrink p q hp9 hq9) (by omega) hd1 ?_
            rw [hb1at]
            exact isSetB_drop_self _ hcpq d (by omega)
          · exact hrest.dropped r hr
        · intro p0 hp0 hq0 hsingle
          rcases hrest.singles p0 hp0 hq0 hsingle with h | h
          · exact Or.inl h
          · by_cases hij : p0 = (p, q)
            · subst hij
              rw [h, hb1at] at hsingle
              exact absurd hsingle hsng
            · exact Or.inr (h.trans (hb1ne p0.1 p0.2 hp0 hq0 hij))
        · intro g hg hne hadm
          exact hrest.keep g hg (fun r hr => hne r (List.mem_cons_of_mem _ hr))
            (hadm1 g hg (hne (p, q) (List.mem_cons_self _ _)) hadm)
      case pos =>
        rw [if_pos hsng] at heq
        cases hrec : setFuel n (writeCell b p q (cellDrop (cellAt b p q) d)) p q
            (digitC (cellDrop (cellAt b p q) d)) with
        | none => rw [hrec] at heq; exact absurd heq (by simp)
        | some b2 =>
          rw [hrec] at heq
          have he19 := single_digit_bounds _ hc'lt hsng
          have hc'bit : cellDrop (cellAt b p q) d =
              1 <<< (digitC (cellDrop (cellAt b p q) d) - 1) :=
            single_eq_shift _ hc'lt hsng
          cases n with
          | zero => rw [setFuel_zero] at hrec; exact absurd hrec (by simp)
          | succ m =>
            rw [setFuel_succ] at hrec
            rw [show writeCell (writeCell b p q (cellDrop (cellAt b p q) d)) p q
                  (cellSet (cellClear (cellAt (writeCell b p q
                    (cellDrop (cellAt b p q) d)) p q))
                    (digitC (cellDrop (cellAt b p q) d))) =
                  writeCell b p q (cellDrop (cellAt b p q) d) by
              rw [cellSet_clear]
              exact writeCell_self (by rw [hb1len]; omega) (by rw [hb1at, ← hc'bit])] at hrec
            have hinner : GoPost (writeCell b p q (cellDrop (cellAt b p q) d)) b2
                (digitC (cellDrop (cellAt b p q) d)) (peerList p q) :=
              IH m (Nat.lt_succ_self m) (peerList p q) _ _ b2 hb1len hb1cells
                he19.1 he19.2 (peerList_bounds hp9 hq9) hrec
            have hrest : GoPost b2 y d rest :=
              IHl b2 d y hinner.len hinner.cwf hd1 hd9 hbounds' heq
            have hb2pq : subC (cellAt b2 p q)
                (1 <<< (digitC (cellDrop (cellAt b p q) d) - 1)) := by
              have := hinner.shrink p q hp9 hq9
              rw [hb1at, hc'bit] at this
              exact this
            have hdne : d ≠ digitC (cellDrop (cellAt b p q) d) := by
              intro hde
              have h1 := isSetB_drop_self (cellAt b p q) hcpq d (by omega)
              have h2 : isSetB (cellDrop (cellAt b p q) d)
                  (digitC (cellDrop (cellAt b p q) d)) = true :=
                (single_isSet_iff _ hc'lt _ (by omega) he19.1 hsng).mpr rfl
              rw [← hde] at h2
              rw [h1] at h2
              exact absurd h2 (by simp)
            refine ⟨hrest.len, ?_, ?_, ?_, hrest.cwf, ?_⟩
            · intro i j hi hj
              exact subC_trans (hrest.shrink i j hi hj)
                (subC_trans (hinner.shrink i j hi hj) (hshrink1 i j hi hj))
            · intro r hr
              rcases List.mem_cons.mp hr with hr | hr
              · subst hr
                refine subC_false (hrest.shrink p q hp9 hq9) (by omega) hd1 ?_
                refine subC_false hb2pq (by omega) hd1 ?_
                cases hd' : isSetB (1 <<< (digitC (cellDrop (cellAt b p q) d) - 1)) d with
                | false => rfl
                | true =>
                  exact absurd ((isSetB_shift _ (by omega) d (by omega) he19.1 hd1).mp hd')
                    hdne
              · exact hrest.dropped r hr
            · intro p0 hp0 hq0 hsingle
              rcases hrest.singles p0 hp0 hq0 hsingle with h | h
              · exact Or.inl h
              · rcases hinner.singles p0 hp0 hq0 (h ▸ hsingle) with h2 | h2
                · exact Or.inl (APL_shrink hp0 hq0 hrest.shrink h hinner.cwf
                    (h ▸ hsingle) h2)
                · by_cases hij : p0 = (p, q)
                  · subst hij
                    rw [hb1at] at h2
                    refine Or.inl ?_
                    intro r hr
                    have hrb := peerList_bounds hp0 hq0 r hr
                    have hyd : digitC (cellAt y p q) =
                        digitC (cellDrop (cellAt b p q) d) := by
                      rw [h, h2]
                    rw [hyd]
                    refine subC_false (hrest.shrink r.1 r.2 hrb.1 hrb.2) (by omega)
                      he19.1 (hinner.dropped r hr)
                  · refine Or.inr ?_
                    rw [h, h2]
                    exact hb1ne p0.1 p0.2 hp0 hq0 hij
            · intro g hg hne hadm
              have hadmb1 := hadm1 g hg (hne (p, q) (List.mem_cons_self _ _)) hadm
              have hgpq : g (p, q) = digitC (cellDrop (cellAt b p q) d) := by
                have := hadmb1 (p, q) hp9 hq9
                rw [hb1at] at this
                exact (single_isSet_iff _ hc'lt (g (p, q)) (by
                  have := hg.1 (p, q); omega) (by have := hg.1 (p, q); omega) hsng).mp this
              have hadmb2 : admits g b2 := by
                refine hinner.keep g hg ?_ hadmb1
                intro r hr
                rw [← hgpq]
                intro hgr
                exact (hg.2 (p, q) hp9 hq9 r hr) (hgpq ▸ hgr ▸ hgpq.symm ▸ rfl)
              exact hrest.keep g hg (fun r hr => hne r (List.mem_cons_of_mem _ hr)) hadmb2

/-- Post-condition of a full `Board.Set` call. -/
structure SetPost (b : Board) (i j d : ℕ) (b' : Board) : Prop where
  len : b'.length = 81
  shrink : ∀ p0 : ℕ × ℕ, p0.1 < 9 → p0.2 < 9 → p0 ≠ (i, j) →
    subC (cellAt b' p0.1 p0.2) (cellAt b p0.1 p0.2)
  target : subC (cellAt b' i j) (1 <<< (d - 1))
  dropped : ∀ r ∈ peerList i j, isSetB (cellAt b' r.1 r.2) d = false
  singles : ∀ p0 : ℕ × ℕ, p0.1 < 9 → p0.2 < 9 → singleB (cellAt b' p0.1 p0.2) = true →
    APL b' p0 ∨ cellAt b' p0.1 p0.2 = cellAt b p0.1 p0.2
  cwf : ∀ p0 q0, p0 < 9 → q0 < 9 → cellAt b' p0 q0 < 512
  keep : ∀ g, ValidG g → admits g b → d = g (i, j) → admits g b'

theorem setFuel_post {n : ℕ} {b : Board} {i j d : ℕ} {b' : Board}
    (hlen : b.length = 81) (hcells : ∀ p0 q0, p0 < 9 → q0 < 9 → cellAt b p0 q0 < 512)
    (hi : i < 9) (hj : j < 9) (hd1 : 1 ≤ d) (hd9 : d ≤ 9)
    (heq : setFuel n b i j d = some b') : SetPost b i j d b' := by
  cases n with
  | zero => rw [setFuel_zero] at heq; exact absurd heq (by simp)
  | succ m =>
    rw [setFuel_succ, cellSet_clear] at heq
    have hidx : 9 * i + j < b.length := by rw [hlen]; omega
    have hwlen : (writeCell b i j (1 <<< (d - 1))).length = 81 := by
      rw [length_writeCell, hlen]
    have hwat : cellAt (writeCell b i j (1 <<< (d - 1))) i j = 1 <<< (d - 1) :=
      cellAt_writeCell_self hidx _
    have hwne : ∀ p0 q0, p0 < 9 → q0 < 9 → (p0, q0) ≠ (i, j) →
        cellAt (writeCell b i j (1 <<< (d - 1))) p0 q0 = cellAt b p0 q0 := by
      intro p0 q0 hp0 hq0 hne
      exact cellAt_writeCell_ne (idx_ne hj hq0 (Ne.symm hne)) _
    have hwcells : ∀ p0 q0, p0 < 9 → q0 < 9 →
        cellAt (writeCell b i j (1 <<< (d - 1))) p0 q0 < 512 := by
      intro p0 q0 hp0 hq0
      by_cases hij : (p0, q0) = (i, j)
      · injection hij with e1 e2
        subst e1; subst e2
        rw [hwat]
        exact shift_lt_512 d (by omega) hd1
      · rw [hwne p0 q0 hp0 hq0 hij]
        exact hcells p0 q0 hp0 hq0
    have hgo : GoPost (writeCell b i j (1 <<< (d - 1))) b' d (peerList i j) :=
      goPost_main m (peerList i j) _ d b' hwlen hwcells hd1 hd9
        (peerList_bounds hi hj) heq
    refine ⟨hgo.len, ?_, ?_, hgo.dropped, ?_, hgo.cwf, ?_⟩
    · intro p0 hp0 hq0 hne
      exact subC_trans (hgo.shrink p0.1 p0.2 hp0 hq0)
        (subC_of_eq (hwne p0.1 p0.2 hp0 hq0 hne))
    · have h := hgo.shrink i j hi hj
      rw [hwat] at h
      exact h
    · intro p0 hp0 hq0 hsingle
      rcases hgo.singles p0 hp0 hq0 hsingle with h | h
      · exact Or.inl h
      · by_cases hij : p0 = (i, j)
        · refine Or.inl ?_
          intro r hr
          have h' : cellAt b' p0.1 p0.2 = 1 <<< (d - 1) := by
            rw [h, hij]; exact hwat
          have hdig : digitC (cellAt b' p0.1 p0.2) = d := by
            rw [h']; exact digitC_shift d (by omega) hd1
          rw [hdig]
          refine hgo.dropped r ?_
          rw [hij] at hr
          exact hr
        · exact Or.inr (h.trans (hwne p0.1 p0.2 hp0 hq0 hij))
    · intro g hg hadm hdg
      refine hgo.keep g hg ?_ ?_
      · intro r hr hgr
        exact (hg.2 (i, j) hi hj r hr) (by rw [← hdg, hgr])
      · intro p0 hp0 hq0
        by_cases hij : p0 = (i, j)
        · have h' : cellAt (writeCell b i j (1 <<< (d - 1))) p0.1 p0.2 =
              1 <<< (d - 1) := by
            rw [hij]; exact hwat
          rw [h']
          refine (isSetB_shift d (by omega) (g p0) (by have := hg.1 p0; omega)
            hd1 (by have := hg.1 p0; omega)).mpr ?_
          rw [hij, ← hdg]
        · rw [hwne p0.1 p0.2 hp0 hq0 hij]
          exact hadm p0 hp0 hq0

/-! ### Termination measure: total pencil-mark count -/

theorem sum_update : ∀ (l : List (ℕ × ℕ)) (f f' : ℕ × ℕ → ℕ) (r : ℕ × ℕ),
    l.Nodup → r ∈ l → (∀ s ∈ l, s ≠ r → f' s = f s) →
    (l.map f').sum + f r = (l.map f).sum + f' r := by
  intro l
  induction l with
  | nil => intro f f' r _ hr; exact absurd hr (by simp)
  | cons s l' IH =>
    intro f f' r hnd hr hagree
    rcases List.mem_cons.mp hr with hsr | hr'
    · subst hsr
      have hmap : l'.map f' = l'.map f := by
        apply List.map_congr_left
        intro x hx
        exact hagree x (List.mem_cons_of_mem _ hx) (by
          intro he
          subst he
          exact (List.nodup_cons.mp hnd).1 hx)
      simp only [List.map_cons, List.sum_cons, hmap]
      omega
    · have hsne : s ≠ r := by
        intro he
        subst he
        exact (List.nodup_cons.mp hnd).1 hr'
      have hIH := IH f f' r (List.nodup_cons.mp hnd).2 hr'
        (fun x hx hxr => hagree x (List.mem_cons_of_mem _ hx) hxr)
      simp only [List.map_cons, List.sum_cons, hagree s (List.mem_cons_self _ _) hsne]
      omega

theorem allPos_nodup : allPos.Nodup := by decide

theorem totB_write {b : Board} (hlen : b.length = 81) {i j : ℕ}
    (hi : i < 9) (hj : j < 9) (v : ℕ) :
    totB (writeCell b i j v) + countC (cellAt b i j) = totB b + countC v := by
  have hat : cellAt (writeCell b i j v) i j = v :=
    cellAt_writeCell_self (by rw [hlen]; omega) _
  have h := sum_update allPos (fun p => countC (cellAt b p.1 p.2))
    (fun p => countC (cellAt (writeCell b i j v) p.1 p.2)) (i, j) allPos_nodup
    (mem_allPos.mpr ⟨hi, hj⟩) (fun s hs hsne => by
      have hsb := mem_allPos.mp hs
      simp only
      rw [cellAt_writeCell_ne (idx_ne hj hsb.2 (Ne.symm hsne)) _])
  simp only at h
  rw [hat] at h
  exact h

theorem totB_le_729 {b : Board} (hcells : ∀ i j, i < 9 → j < 9 → cellAt b i j < 512) :
    totB b ≤ 729 := by
  have h : ∀ x ∈ allPos.map (fun p => countC (cellAt b p.1 p.2)), x ≤ 9 := by
    intro x hx
    rcases List.mem_map.mp hx with ⟨p, hp, he⟩
    have hpb := mem_allPos.mp hp
    rw [← he]
    exact countC_le_9 _ (hcells p.1 p.2 hpb.1 hpb.2)
  calc (allPos.map (fun p => countC (cellAt b p.1 p.2))).sum
      ≤ (allPos.map (fun p => countC (cellAt b p.1 p.2))).length * 9 :=
        List.sum_le_card_nsmul _ 9 h
    _ = 729 := by rw [List.length_map]; rfl

def cellFin (c : ℕ) : Finset ℕ := (Finset.Icc 1 9).filter (fun d => isSetB c d = true)

theorem countC_card : ∀ c < 512, countC c = (cellFin c).card := by decide

theorem countC_mono {c c' : ℕ} (hs : subC c c') (hc : c < 512) (hc' : c' < 512) :
    countC c ≤ countC c' := by
  rw [countC_card c hc, countC_card c' hc']
  apply Finset.card_le_card
  intro d hd
  rcases Finset.mem_filter.mp hd with ⟨hdi, hds⟩
  have hdb := Finset.mem_Icc.mp hdi
  exact Finset.mem_filter.mpr ⟨hdi, hs d (by omega) hdb.1 hds⟩

theorem totB_mono {y b : Board} (hs : SubB y b)
    (hy : ∀ i j, i < 9 → j < 9 → cellAt y i j < 512)
    (hb : ∀ i j, i < 9 → j < 9 → cellAt b i j < 512) : totB y ≤ totB b := by
  apply List.sum_le_sum
  intro p hp
  have hpb := mem_allPos.mp hp
  exact countC_mono (hs p.1 p.2 hpb.1 hpb.2) (hy p.1 p.2 hpb.1 hpb.2)
    (hb p.1 p.2 hpb.1 hpb.2)

/-! ### Fuel sufficiency for `Board.Set` -/

theorem goPeers_total : ∀ n : ℕ, ∀ l : List (ℕ × ℕ), ∀ b d,
    b.length = 81 → (∀ i j, i < 9 → j < 9 → cellAt b i j < 512) →
    1 ≤ d → d ≤ 9 → (∀ r ∈ l, r.1 < 9 ∧ r.2 < 9) → totB b ≤ n →
    ∃ y, goPeers (setFuel n) d b l = some y := by
  intro n
  induction n using Nat.strong_induction_on with
  | _ n IH =>
  intro l
  induction l with
  | nil => intro b d _ _ _ _ _ _; exact ⟨b, goPeers_nil _ _ _⟩
  | cons r rest IHl =>
    obtain ⟨p, q⟩ := r
    intro b d hlen hcells hd1 hd9 hbounds htot
    have hp9 : p < 9 := (hbounds (p, q) (List.mem_cons_self _ _)).1
    have hq9 : q < 9 := (hbounds (p, q) (List.mem_cons_self _ _)).2
    have hbounds' : ∀ r ∈ rest, r.1 < 9 ∧ r.2 < 9 :=
      fun r hr => hbounds r (List.mem_cons_of_mem _ hr)
    have hcpq : cellAt b p q < 512 := hcells p q hp9 hq9
    by_cases hs : isSetB (cellAt b p q) d = true
    case neg =>
      obtain ⟨y, hy⟩ := IHl b d hlen hcells hd1 hd9 hbounds' htot
      refine ⟨y, ?_⟩
      rw [goPeers_cons, if_neg (by simpa using hs)]
      exact hy
    case pos =>
      have hidx : 9 * p + q < b.length := by rw [hlen]; omega
      have hc'lt : cellDrop (cellAt b p q) d < 512 := cellDrop_lt_512 hcpq d
      have hb1len : (writeCell b p q (cellDrop (cellAt b p q) d)).length = 81 := by
        rw [length_writeCell, hlen]
      have hb1at : cellAt (writeCell b p q (cellDrop (cellAt b p q) d)) p q =
          cellDrop (cellAt b p q) d := cellAt_writeCell_self hidx _
      have hb1cells : ∀ i j, i < 9 → j < 9 →
          cellAt (writeCell b p q (cellDrop (cellAt b p q) d)) i j < 512 := by
        intro i j hi hj
        by_cases hij : 9 * p + q = 9 * i + j
        · obtain ⟨e1, e2⟩ := idx_inj hq9 hj hij
          subst e1; subst e2
          rw [hb1at]; exact hc'lt
        · rw [cellAt_writeCell_ne hij _]
          exact hcells i j hi hj
      have htot1 : totB (writeCell b p q (cellDrop (cellAt b p q) d)) + 1 = totB b := by
        have hw := totB_write hlen hp9 hq9 (cellDrop (cellAt b p q) d)
        have hdc := drop_count (cellAt b p q) hcpq d (by omega) hd1 hs
        omega
      by_cases hsng : singleB (cellDrop (cellAt b p q) d) = true
      case neg =>
        obtain ⟨y, hy⟩ := IHl _ d hb1len hb1cells hd1 hd9 hbounds' (by omega)
        refine ⟨y, ?_⟩
        rw [goPeers_cons, if_pos hs, if_neg (by simpa using hsng)]
        exact hy
      case pos =>
        have he19 := single_digit_bounds _ hc'lt hsng
        have hc'bit : cellDrop (cellAt b p q) d =
            1 <<< (digitC (cellDrop (cellAt b p q) d) - 1) :=
          single_eq_shift _ hc'lt hsng
        have hn1 : 1 ≤ n := by omega
        obtain ⟨m, hm⟩ : ∃ m, n = m + 1 := ⟨n - 1, by omega⟩
        subst hm
        have hinner : ∃ b2, goPeers (setFuel m)
            (digitC (cellDrop (cellAt b p q) d))
            (writeCell b p q (cellDrop (cellAt b p q) d)) (peerList p q) = some b2 :=
          IH m (Nat.lt_succ_self m) (peerList p q) _ _ hb1len hb1cells
            he19.1 he19.2 (peerList_bounds hp9 hq9) (by omega)
        obtain ⟨b2, hb2⟩ := hinner
        have hrec : setFuel (m + 1) (writeCell b p q (cellDrop (cellAt b p q) d)) p q
            (digitC (cellDrop (cellAt b p q) d)) = some b2 := by
          rw [setFuel_succ, cellSet_clear]
          rw [show writeCell (writeCell b p q (cellDrop (cellAt b p q) d)) p q
                (1 <<< (digitC (cellDrop (cellAt b p q) d) - 1)) =
                writeCell b p q (cellDrop (cellAt b p q) d) from
            writeCell_self (by rw [hb1len]; omega) (by rw [hb1at, ← hc'bit])]
          exact hb2
        have hpost : GoPost (writeCell b p q (cellDrop (cellAt b p q) d)) b2
            (digitC (cellDrop (cellAt b p q) d)) (peerList p q) :=
          goPost_main m (peerList p q) _ _ b2 hb1len hb1cells he19.1 he19.2
            (peerList_bounds hp9 hq9) hb2
        have htot2 : totB b2 ≤ totB (writeCell b p q (cellDrop (cellAt b p q) d)) :=
          totB_mono hpost.shrink hpost.cwf hb1cells
        obtain ⟨y, hy⟩ := IHl b2 d hpost.len hpost.cwf hd1 hd9 hbounds' (by omega)
        refine ⟨y, ?_⟩
        rw [goPeers_cons, if_pos hs, if_pos hsng, hrec]
        exact hy

theorem setFuel_total {b : Board} {i j d : ℕ}
    (hlen : b.length = 81) (hcells : ∀ p0 q0, p0 < 9 → q0 < 9 → cellAt b p0 q0 < 512)
    (hi : i < 9) (hj : j < 9) (hd1 : 1 ≤ d) (hd9 : d ≤ 9) :
    ∃ b', setFuel 730 b i j d = some b' := by
  rw [setFuel_succ, cellSet_clear]
  have hidx : 9 * i + j < b.length := by rw [hlen]; omega
  have hwlen : (writeCell b i j (1 <<< (d - 1))).length = 81 := by
    rw [length_writeCell, hlen]
  have hwcells : ∀ p0 q0, p0 < 9 → q0 < 9 →
      cellAt (writeCell b i j (1 <<< (d - 1))) p0 q0 < 512 := by
    intro p0 q0 hp0 hq0
    by_cases hij : (p0, q0) = (i, j)
    · injection hij with e1 e2
      subst e1; subst e2
      rw [cellAt_writeCell_self hidx _]
      exact shift_lt_512 d (by omega) hd1
    · rw [cellAt_writeCell_ne (idx_ne hj hq0 (Ne.symm hij)) _]
      exact hcells p0 q0 hp0 hq0
  exact goPeers_total 729 (peerList i j) _ d hwlen hwcells hd1 hd9
    (peerList_bounds hi hj) (totB_le_729 hwcells)

theorem tryDigits_nil (recur : Board → Option (Bool × Board)) (b : Board) (i j : ℕ) :
    tryDigits recur b i j [] = some (false, b) := rfl

theorem tryDigits_cons (recur : Board → Option (Bool × Board)) (b : Board) (i j d : ℕ)
    (ds : List ℕ) :
    tryDigits recur b i j (d :: ds) =
      match setFuel 730 b i j d with
      | none => none
      | some b1 =>
        match recur b1 with
        | none => none
        | some (true, b2) => some (true, b2)
        | some (false, _) => tryDigits recur b i j ds := rfl

theorem solveFuel_zero (b : Board) : solveFuel 0 b = none := rfl

theorem solveFuel_succ (n : ℕ) (b : Board) :
    solveFuel (n + 1) b =
      match lowestF b with
      | none => some (solvedB b, b)
      | some (i, j) => tryDigits (solveFuel n) b i j (digitsL (cellAt b i j)) := rfl

/-! ### The restore property of the candidate loop (claim C2) -/

theorem tryDigits_restore (recur : Board → Option (Bool × Board)) (b : Board) (i j : ℕ) :
    ∀ l b'', tryDigits recur b i j l = some (false, b'') → b'' = b := by
  intro l
  induction l with
  | nil =>
    intro b'' heq
    rw [tryDigits_nil] at heq
    injection heq with h
    injection h with _ h2
    exact h2.symm
  | cons d ds IH =>
    intro b'' heq
    rw [tryDigits_cons] at heq
    cases hset : setFuel 730 b i j d with
    | none => rw [hset] at heq; exact absurd heq (by simp)
    | some b1 =>
      rw [hset] at heq
      have heq2 : (match recur b1 with
          | none => none
          | some (true, b2) => some (true, b2)
          | some (false, _) => tryDigits recur b i j ds) = some (false, b'') := heq
      cases hrec : recur b1 with
      | none => rw [hrec] at heq2; exact absurd heq2 (by simp)
      | some rb =>
        obtain ⟨r, b2⟩ := rb
        rw [hrec] at heq2
        cases r with
        | true =>
          simp only at heq2
          injection heq2 with h
          injection h with h1 _
          exact absurd h1 (by simp)
        | false => exact IH b'' heq2

theorem solveFuel_restore : ∀ n b b', solveFuel n b = some (false, b') → b' = b := by
  intro n b b' heq
  cases n with
  | zero => rw [solveFuel_zero] at heq; exact absurd heq (by simp)
  | succ m =>
    rw [solveFuel_succ] at heq
    cases hlow : lowestF b with
    | none =>
      rw [hlow] at heq
      simp only at heq
      injection heq with h
      injection h with _ h2
      exact h2.symm
    | some ij =>
      obtain ⟨i, j⟩ := ij
      rw [hlow] at heq
      exact tryDigits_restore (solveFuel m) b i j (digitsL (cellAt b i j)) b' heq

/-! ### Soundness: a `true` answer comes with a fully single board -/

theorem tryDigits_true (recur : Board → Option (Bool × Board)) (b : Board) (i j : ℕ)
    (hrec : ∀ b1 b2, recur b1 = some (true, b2) → solvedB b2 = true) :
    ∀ l b'', tryDigits recur b i j l = some (true, b'') → solvedB b'' = true := by
  intro l
  induction l with
  | nil =>
    intro b'' heq
    rw [tryDigits_nil] at heq
    injection heq with h
    injection h with h1 _
    exact absurd h1 (by simp)
  | cons d ds IH =>
    intro b'' heq
    rw [tryDigits_cons] at heq
    cases hset : setFuel 730 b i j d with
    | none => rw [hset] at heq; exact absurd heq (by simp)
    | some b1 =>
      rw [hset] at heq
      have heq2 : (match recur b1 with
          | none => none
          | some (true, b2) => some (true, b2)
          | some (false, _) => tryDigits recur b i j ds) = some (true, b'') := heq
      cases hr : recur b1 with
      | none => rw [hr] at heq2; exact absurd heq2 (by simp)
      | some rb =>
        obtain ⟨r, b2⟩ := rb
        rw [hr] at heq2
        cases r with
        | true =>
          simp only at heq2
          injection heq2 with h
          injection h with _ h2
          exact h2 ▸ hrec b1 b2 hr
        | false => exact IH b'' heq2

theorem solveFuel_sound : ∀ n b b', solveFuel n b = some (true, b') → solvedB b' = true := by
  intro n
  induction n using Nat.strong_induction_on with
  | _ n IH =>
  intro b b' heq
  cases n with
  | zero => rw [solveFuel_zero] at heq; exact absurd heq (by simp)
  | succ m =>
    rw [solveFuel_succ] at heq
    cases hlow : lowestF b with
    | none =>
      rw [hlow] at heq
      simp only at heq
      injection heq with h
      injection h with h1 h2
      exact h2 ▸ h1
    | some ij =>
      obtain ⟨i, j⟩ := ij
      rw [hlow] at heq
      exact tryDigits_true (solveFuel m) b i j
        (fun b1 b2 h => IH m (Nat.lt_succ_self m) b1 b2 h) (digitsL (cellAt b i j)) b' heq

/-! ### Characterisation of `Board.Lowest` -/

theorem lowGo_nil (b : Board) (acc : ℕ × ℕ × ℕ × Bool) : lowGo b [] acc = acc := rfl

theorem lowGo_cons (b : Board) (a bb : ℕ) (rest : List (ℕ × ℕ)) (low i j : ℕ) (ok : Bool) :
    lowGo b ((a, bb) :: rest) (low, i, j, ok) =
      if 1 < countC (cellAt b a bb) ∧ countC (cellAt b a bb) < low then
        lowGo b rest (countC (cellAt b a bb), a, bb, true)
      else lowGo b rest (low, i, j, ok) := rfl

theorem lowGo_cases : ∀ (l : List (ℕ × ℕ)) (b : Board) (low i j : ℕ) (ok : Bool)
    (low' i' j' : ℕ) (ok' : Bool),
    lowGo b l (low, i, j, ok) = (low', i', j', ok') → 1 < low →
    ((low', i', j', ok') = (low, i, j, ok) ∧
      ∀ r ∈ l, ¬(1 < countC (cellAt b r.1 r.2) ∧ countC (cellAt b r.1 r.2) < low)) ∨
    (ok' = true ∧ 1 < low' ∧ low' < low ∧ countC (cellAt b i' j') = low' ∧
      ∃ u v, l = u ++ (i', j') :: v ∧
        (∀ s ∈ u, ¬(1 < countC (cellAt b s.1 s.2) ∧ countC (cellAt b s.1 s.2) ≤ low')) ∧
        (∀ s ∈ v, ¬(1 < countC (cellAt b s.1 s.2) ∧ countC (cellAt b s.1 s.2) < low'))) := by
  intro l b
  induction l with
  | nil =>
    intro low i j ok low' i' j' ok' heq _
    rw [lowGo_nil] at heq
    exact Or.inl ⟨heq.symm, by simp⟩
  | cons r rest IH =>
    obtain ⟨a, bb⟩ := r
    intro low i j ok low' i' j' ok' heq hlow
    rw [lowGo_cons] at heq
    by_cases hc : 1 < countC (cellAt b a bb) ∧ countC (cellAt b a bb) < low
    · rw [if_pos hc] at heq
      rcases IH (countC (cellAt b a bb)) a bb true low' i' j' ok' heq hc.1 with
        ⟨he, hall⟩ | ⟨hok, h1, h2, h3, u, v, hsplit, hu, hv⟩
      · injection he with e1 e2
        injection e2 with e2 e3
        injection e3 with e3 e4
        refine Or.inr ⟨e4, ?_, ?_, ?_, [], rest, ?_, by simp, ?_⟩
        · rw [e1]; exact hc.1
        · rw [e1]; exact hc.2
        · rw [e1, e2, e3]
        · simp [e2, e3]
        · intro s hs
          rw [e1]
          exact hall s hs
      · refine Or.inr ⟨hok, h1, by omega, h3, (a, bb) :: u, v, by rw [hsplit]; rfl, ?_, hv⟩
        intro s hs
        rcases List.mem_cons.mp hs with hs | hs
        · subst hs
          exact fun hcon => absurd hcon.2 (Nat.not_le.mpr h2)
        · exact hu s hs
    · rw [if_neg hc] at heq
      rcases IH low i j ok low' i' j' ok' heq hlow with
        ⟨he, hall⟩ | ⟨hok, h1, h2, h3, u, v, hsplit, hu, hv⟩
      · refine Or.inl ⟨he, ?_⟩
        intro r hr
        rcases List.mem_cons.mp hr with hr | hr
        · rw [hr]; exact hc
        · exact hall r hr
      · refine Or.inr ⟨hok, h1, h2, h3, (a, bb) :: u, v, by rw [hsplit]; rfl, ?_, hv⟩
        intro s hs
        rcases List.mem_cons.mp hs with hs | hs
        · subst hs
          exact fun hcon => hc ⟨hcon.1, lt_of_le_of_lt hcon.2 h2⟩
        · exact hu s hs

theorem lowestF_none_char {b : Board}
    (hcells : ∀ i j, i < 9 → j < 9 → cellAt b i j < 512) :
    lowestF b = none ↔ ∀ p : ℕ × ℕ, p.1 < 9 → p.2 < 9 →
      countC (cellAt b p.1 p.2) ≤ 1 := by
  rcases hres : lowGo b allPos (10, 0, 0, false) with ⟨low', i', j', ok'⟩
  rcases lowGo_cases allPos b 10 0 0 false low' i' j' ok' hres (by omega) with
    ⟨he, hall⟩ | ⟨hok, h1, h2, h3, u, v, hsplit, hu, hv⟩
  · injection he with e1 e2
    injection e2 with e2 e3
    injection e3 with e3 e4
    have hln : lowestF b = none := by
      unfold lowestF
      rw [hres, e4]
      rfl
    rw [hln]
    constructor
    · intro _ p hp1 hp2
      have h : ¬(1 < countC (cellAt b p.1 p.2) ∧ countC (cellAt b p.1 p.2) < 10) :=
        hall p (mem_allPos.mpr ⟨hp1, hp2⟩)
      have hle := countC_le_9 _ (hcells p.1 p.2 hp1 hp2)
      omega
    · intro _
      rfl
  · have hls : lowestF b = some (i', j') := by
      unfold lowestF
      rw [hres, hok]
      rfl
    rw [hls]
    constructor
    · intro h
      exact absurd h (by simp)
    · intro hall
      have hmem : (i', j') ∈ allPos := by rw [hsplit]; simp
      have hb := mem_allPos.mp hmem
      have h : countC (cellAt b i' j') ≤ 1 := hall (i', j') hb.1 hb.2
      omega

instance (p q : ℕ × ℕ) : Decidable (lexLT p q) := by
  unfold lexLT
  exact inferInstance

theorem allPos_pairwise_lex : List.Pairwise lexLT allPos := by decide

theorem lowestF_some_char {b : Board} {i j : ℕ}
    (hcells : ∀ i j, i < 9 → j < 9 → cellAt b i j < 512)
    (heq : lowestF b = some (i, j)) :
    i < 9 ∧ j < 9 ∧ 1 < countC (cellAt b i j) ∧
    (∀ p q, p < 9 → q < 9 → 1 < countC (cellAt b p q) →
      countC (cellAt b i j) ≤ countC (cellAt b p q)) ∧
    (∀ p q, p < 9 → q < 9 → lexLT (p, q) (i, j) →
      ¬(1 < countC (cellAt b p q) ∧ countC (cellAt b p q) ≤ countC (cellAt b i j))) := by
  rcases hres : lowGo b allPos (10, 0, 0, false) with ⟨low', i', j', ok'⟩
  rcases lowGo_cases allPos b 10 0 0 false low' i' j' ok' hres (by omega) with
    ⟨he, hall⟩ | ⟨hok, h1, h2, h3, u, v, hsplit, hu, hv⟩
  · injection he with e1 e2
    injection e2 with e2 e3
    injection e3 with e3 e4
    have hln : lowestF b = none := by
      unfold lowestF
      rw [hres, e4]
      rfl
    rw [hln] at heq
    exact absurd heq (by simp)
  · have hls : lowestF b = some (i', j') := by
      unfold lowestF
      rw [hres, hok]
      rfl
    rw [hls] at heq
    injection heq with heq
    injection heq with ei ej
    rw [← ei, ← ej]
    have hmem : (i', j') ∈ allPos := by rw [hsplit]; simp
    have hb := mem_allPos.mp hmem
    have hminim : ∀ p q, p < 9 → q < 9 → 1 < countC (cellAt b p q) →
        countC (cellAt b i' j') ≤ countC (cellAt b p q) := by
      intro p q hp hq hcnt
      have hpm : (p, q) ∈ allPos := mem_allPos.mpr ⟨hp, hq⟩
      rw [hsplit] at hpm
      rcases List.mem_append.mp hpm with hpm | hpm
      · have h' : ¬(1 < countC (cellAt b p q) ∧ countC (cellAt b p q) ≤ low') :=
          hu (p, q) hpm
        omega
      · rcases List.mem_cons.mp hpm with hpm | hpm
        · injection hpm with f1 f2
          subst f1; subst f2
          omega
        · have h' : ¬(1 < countC (cellAt b p q) ∧ countC (cellAt b p q) < low') :=
            hv (p, q) hpm
          omega
    refine ⟨hb.1, hb.2, by omega, hminim, ?_⟩
    intro p q hp hq hlex hcon
    have hpm : (p, q) ∈ allPos := mem_allPos.mpr ⟨hp, hq⟩
    have hne : (p, q) ≠ (i', j') := by
      intro he
      injection he with f1 f2
      rcases hlex with h | h
      · omega
      · omega
    rw [hsplit] at hpm
    rcases List.mem_append.mp hpm with hpm | hpm
    · have h' : ¬(1 < countC (cellAt b p q) ∧ countC (cellAt b p q) ≤ low') :=
        hu (p, q) hpm
      have h3x := h3
      omega
    · rcases List.mem_cons.mp hpm with hpm | hpm
      · exact hne hpm
      · have hPair := allPos_pairwise_lex
        rw [hsplit] at hPair
        have hvlex : ∀ s ∈ v, lexLT (i', j') s :=
          (List.pairwise_cons.mp (List.pairwise_append.mp hPair).2.1).1
        have h3' : lexLT (i', j') (p, q) := hvlex (p, q) hpm
        rcases h3' with h4 | h4
        · rcases hlex with h5 | h5
          · omega
          · omega
        · rcases hlex with h5 | h5
          · simp only at h4 h5
            omega
          · simp only at h4 h5
            omega

/-! ### More cell facts -/

theorem isSetB_one_le_count : ∀ c < 512, ∀ dd < 10, 1 ≤ dd → isSetB c dd = true →
    1 ≤ countC c := by decide

theorem countC_eq_zero : ∀ c < 512, (countC c = 0 ↔ c = 0) := by decide

theorem singleB_zero : singleB 0 = false := rfl

theorem countC_shift_one : ∀ d < 10, 1 ≤ d → countC (1 <<< (d - 1)) = 1 := by decide

/-! ### `Board.Set` preserves the propagation invariant -/

theorem setFuel_propagated {n : ℕ} {b : Board} {i j d : ℕ} {b' : Board}
    (hlen : b.length = 81) (hcells : ∀ p0 q0, p0 < 9 → q0 < 9 → cellAt b p0 q0 < 512)
    (hi : i < 9) (hj : j < 9) (hd1 : 1 ≤ d) (hd9 : d ≤ 9)
    (hP : Propagated b) (heq : setFuel n b i j d = some b') : Propagated b' := by
  have post := setFuel_post hlen hcells hi hj hd1 hd9 heq
  intro p hp1 hp2 hsingle q hq
  rcases post.singles p hp1 hp2 hsingle with h | h
  · exact h q hq
  · have hsb : singleB (cellAt b p.1 p.2) = true := h ▸ hsingle
    have hqb := peerList_bounds hp1 hp2 q hq
    have hdig : digitC (cellAt b' p.1 p.2) = digitC (cellAt b p.1 p.2) := by rw [h]
    rw [hdig]
    have he : 1 ≤ digitC (cellAt b p.1 p.2) ∧ digitC (cellAt b p.1 p.2) ≤ 9 :=
      single_digit_bounds _ (hcells p.1 p.2 hp1 hp2) hsb
    by_cases hqt : 9 * q.1 + q.2 = 9 * i + j
    · obtain ⟨f1, f2⟩ := idx_inj hqb.2 hj hqt
      cases hset : isSetB (cellAt b' q.1 q.2) (digitC (cellAt b p.1 p.2)) with
      | false => rfl
      | true =>
        have hset' : isSetB (cellAt b' i j) (digitC (cellAt b p.1 p.2)) = true := by
          rw [← f1, ← f2]; exact hset
        have hin := post.target (digitC (cellAt b p.1 p.2)) (by omega) he.1 hset'
        have hed : digitC (cellAt b p.1 p.2) = d :=
          (isSetB_shift d (by omega) _ (by omega) hd1 he.1).mp hin
        have hqij : q = ((i : ℕ), (j : ℕ)) := by
          obtain ⟨q1, q2⟩ := q
          simp only at f1 f2
          rw [f1, f2]
        have hq' : ((i : ℕ), (j : ℕ)) ∈ peerList p.1 p.2 := hqij ▸ hq
        have hpmem : (p.1, p.2) ∈ peerList i j := peerList_symm hp1 hp2 hq'
        have hdrop : isSetB (cellAt b' p.1 p.2) d = false := post.dropped (p.1, p.2) hpmem
        have hself : isSetB (cellAt b' p.1 p.2) (digitC (cellAt b' p.1 p.2)) = true :=
          (single_isSet_iff _ (post.cwf p.1 p.2 hp1 hp2) _
            (by rw [hdig]; omega) (by rw [hdig]; omega) hsingle).mpr rfl
        rw [hdig, hed] at hself
        rw [hself] at hdrop
        exact hdrop
    · have hne : p ≠ q → True := fun _ => trivial
      have hqne : q ≠ ((i : ℕ), (j : ℕ)) := by
        intro he'
        exact hqt (by rw [he'])
      have hsub : subC (cellAt b' q.1 q.2) (cellAt b q.1 q.2) :=
        post.shrink q hqb.1 hqb.2 hqne
      exact subC_false hsub (by omega) he.1 (hP p hp1 hp2 hsb q hq)

/-! ### The unresolved-cell measure decreases at every guess -/

theorem countP_mono_pair : ∀ (l : List (ℕ × ℕ)) (p q : (ℕ × ℕ) → Bool),
    (∀ a ∈ l, p a = true → q a = true) → l.countP p ≤ l.countP q := by
  intro l p q
  induction l with
  | nil => intro _; simp
  | cons a l' IH =>
    intro h
    rw [List.countP_cons, List.countP_cons]
    have h1 := IH (fun x hx => h x (List.mem_cons_of_mem _ hx))
    cases hpa : p a with
    | false =>
      have e2 : (if q a = true then 1 else 0) ≤ 1 := by split <;> omega
      have egoal : l'.countP p + 0 ≤ l'.countP q + (if q a = true then 1 else 0) := by
        omega
      exact egoal
    | true =>
      have hqa := h a (List.mem_cons_self _ _) hpa
      rw [hqa]
      have egoal : l'.countP p + 1 ≤ l'.countP q + 1 := by omega
      exact egoal

theorem unres_le_81 (b : Board) : unres b ≤ 81 :=
  le_trans (List.length_filter_le _ allPos) (by rfl)

theorem unres_lt {b : Board} {i j d : ℕ} {b' : Board}
    (hcells : ∀ p0 q0, p0 < 9 → q0 < 9 → cellAt b p0 q0 < 512)
    (hi : i < 9) (hj : j < 9) (hd1 : 1 ≤ d) (hd9 : d ≤ 9)
    (post : SetPost b i j d b') (hcnt : 1 < countC (cellAt b i j)) :
    unres b' < unres b := by
  obtain ⟨u, v, hsplit⟩ := List.append_of_mem ((@mem_allPos (i, j)).mpr ⟨hi, hj⟩)
  have hnd := allPos_nodup
  rw [hsplit] at hnd
  have hnotu : ((i : ℕ), (j : ℕ)) ∉ u := by
    intro hmem
    have hdisj := (List.nodup_append.mp hnd).2.2
    exact hdisj hmem (List.mem_cons_self _ _)
  have hnotv : ((i : ℕ), (j : ℕ)) ∉ v :=
    (List.nodup_cons.mp (List.nodup_append.mp hnd).2.1).1
  have hmono : ∀ a ∈ allPos, a ≠ ((i : ℕ), (j : ℕ)) →
      decide (1 < countC (cellAt b' a.1 a.2)) = true →
      decide (1 < countC (cellAt b a.1 a.2)) = true := by
    intro a ha hane hdec
    have hab := mem_allPos.mp ha
    have h1 : 1 < countC (cellAt b' a.1 a.2) := of_decide_eq_true hdec
    have hsub := post.shrink a hab.1 hab.2 hane
    have hle := countC_mono hsub (post.cwf a.1 a.2 hab.1 hab.2)
      (hcells a.1 a.2 hab.1 hab.2)
    exact decide_eq_true (by omega)
  have htarget : decide (1 < countC (cellAt b' i j)) = false := by
    have hsub := post.target
    have hle := countC_mono hsub (post.cwf i j hi hj) (shift_lt_512 d (by omega) hd1)
    rw [countC_shift_one d (by omega) hd1] at hle
    exact decide_eq_false (by omega)
  have htrg2 : decide (1 < countC (cellAt b i j)) = true := decide_eq_true hcnt
  unfold unres
  rw [hsplit, List.filter_append, List.filter_cons, List.length_append,
    List.filter_append, List.filter_cons, List.length_append]
  simp only [htarget, htrg2, if_true, Bool.false_eq_true, if_false, List.length_cons]
  have hu : (u.filter (fun p => decide (1 < countC (cellAt b' p.1 p.2)))).length ≤
      (u.filter (fun p => decide (1 < countC (cellAt b p.1 p.2)))).length := by
    rw [← List.countP_eq_length_filter, ← List.countP_eq_length_filter]
    refine countP_mono_pair u _ _ ?_
    intro a ha
    exact hmono a (by rw [hsplit]; exact List.mem_append_left _ ha)
      (fun he => hnotu (he ▸ ha))
  have hv : (v.filter (fun p => decide (1 < countC (cellAt b' p.1 p.2)))).length ≤
      (v.filter (fun p => decide (1 < countC (cellAt b p.1 p.2)))).length := by
    rw [← List.countP_eq_length_filter, ← List.countP_eq_length_filter]
    refine countP_mono_pair v _ _ ?_
    intro a ha
    exact hmono a (by rw [hsplit]; exact List.mem_append_right _ (List.mem_cons_of_mem _ ha))
      (fun he => hnotv (he ▸ ha))
  omega

/-! ### Step equations for the candidate loop -/

theorem tryDigits_cons_eq {recur : Board → Option (Bool × Board)} {b : Board}
    {i j d : ℕ} {ds : List ℕ} {b1 : Board} (hset : setFuel 730 b i j d = some b1) :
    tryDigits recur b i j (d :: ds) =
      match recur b1 with
      | none => none
      | some (true, b2) => some (true, b2)
      | some (false, _) => tryDigits recur b i j ds := by
  rw [tryDigits_cons, hset]

theorem tryDigits_step_true {recur : Board → Option (Bool × Board)} {b : Board}
    {i j d : ℕ} {ds : List ℕ} {b1 b2 : Board} (hset : setFuel 730 b i j d = some b1)
    (hrec : recur b1 = some (true, b2)) :
    tryDigits recur b i j (d :: ds) = some (true, b2) := by
  rw [tryDigits_cons_eq hset, hrec]

theorem tryDigits_step_false {recur : Board → Option (Bool × Board)} {b : Board}
    {i j d : ℕ} {ds : List ℕ} {b1 b2 : Board} (hset : setFuel 730 b i j d = some b1)
    (hrec : recur b1 = some (false, b2)) :
    tryDigits recur b i j (d :: ds) = tryDigits recur b i j ds := by
  rw [tryDigits_cons_eq hset, hrec]

/-! ### Well-formedness and the propagation invariant through `Board.Solve` -/

/-- Invariant carried through the search: board shape, 9-bit cells, and the
propagation invariant. -/
def BInv (b : Board) : Prop :=
  b.length = 81 ∧ (∀ p0 q0, p0 < 9 → q0 < 9 → cellAt b p0 q0 < 512) ∧ Propagated b

theorem setFuel_inv {n : ℕ} {b : Board} {i j d : ℕ} {b' : Board} (hinv : BInv b)
    (hi : i < 9) (hj : j < 9) (hd1 : 1 ≤ d) (hd9 : d ≤ 9)
    (heq : setFuel n b i j d = some b') : BInv b' := by
  obtain ⟨hlen, hcells, hP⟩ := hinv
  have post := setFuel_post hlen hcells hi hj hd1 hd9 heq
  exact ⟨post.len, post.cwf, setFuel_propagated hlen hcells hi hj hd1 hd9 hP heq⟩

theorem tryDigits_inv {m : ℕ} {b : Board} {i j : ℕ} (hinv : BInv b)
    (hi : i < 9) (hj : j < 9)
    (hrec : ∀ b1 r1 b2, BInv b1 → solveFuel m b1 = some (r1, b2) → BInv b2) :
    ∀ l, (∀ d ∈ l, 1 ≤ d ∧ d ≤ 9) → ∀ r b'',
      tryDigits (solveFuel m) b i j l = some (r, b'') → BInv b'' := by
  intro l
  induction l with
  | nil =>
    intro _ r b'' heq
    rw [tryDigits_nil] at heq
    injection heq with h
    injection h with _ h2
    exact h2 ▸ hinv
  | cons d ds IH =>
    intro hds r b'' heq
    have hd := hds d (List.mem_cons_self _ _)
    rw [tryDigits_cons] at heq
    cases hset : setFuel 730 b i j d with
    | none => rw [hset] at heq; exact absurd heq (by simp)
    | some b1 =>
      rw [hset] at heq
      have hinv1 : BInv b1 := setFuel_inv hinv hi hj hd.1 hd.2 hset
      have heq2 : (match solveFuel m b1 with
          | none => none
          | some (true, b2) => some (true, b2)
          | some (false, _) => tryDigits (solveFuel m) b i j ds) = some (r, b'') := heq
      cases hr : solveFuel m b1 with
      | none => rw [hr] at heq2; exact absurd heq2 (by simp)
      | some rb =>
        obtain ⟨r1, b2⟩ := rb
        rw [hr] at heq2
        cases r1 with
        | true =>
          simp only at heq2
          injection heq2 with h
          injection h with _ h2
          exact h2 ▸ hrec b1 true b2 hinv1 hr
        | false =>
          exact IH (fun d' hd' => hds d' (List.mem_cons_of_mem _ hd')) r b'' heq2

theorem solveFuel_inv : ∀ n b r b', BInv b → solveFuel n b = some (r, b') → BInv b' := by
  intro n
  induction n using Nat.strong_induction_on with
  | _ n IH =>
  intro b r b' hinv heq
  cases n with
  | zero => rw [solveFuel_zero] at heq; exact absurd heq (by simp)
  | succ m =>
    rw [solveFuel_succ] at heq
    cases hlow : lowestF b with
    | none =>
      rw [hlow] at heq
      simp only at heq
      injection heq with h
      injection h with _ h2
      exact h2 ▸ hinv
    | some ij =>
      obtain ⟨i, j⟩ := ij
      rw [hlow] at heq
      have hchar := lowestF_some_char hinv.2.1 hlow
      have hcell : cellAt b i j < 512 := hinv.2.1 i j hchar.1 hchar.2.1
      refine tryDigits_inv hinv hchar.1 hchar.2.1
        (fun b1 r1 b2 h1 h2 => IH m (Nat.lt_succ_self m) b1 r1 b2 h1 h2) _ ?_ r b' heq
      intro d hd
      exact digitsL_range _ hcell d hd

/-! ### Fuel sufficiency for `Board.Solve` -/

theorem solveFuel_total : ∀ n b, BInv b → unres b < n →
    ∃ r b', solveFuel n b = some (r, b') := by
  intro n
  induction n using Nat.strong_induction_on with
  | _ n IH =>
  intro b hinv hun
  cases n with
  | zero => omega
  | succ m =>
    cases hlow : lowestF b with
    | none =>
      refine ⟨solvedB b, b, ?_⟩
      rw [solveFuel_succ, hlow]
    | some ij =>
      obtain ⟨i, j⟩ := ij
      have hchar := lowestF_some_char hinv.2.1 hlow
      have hi := hchar.1
      have hj := hchar.2.1
      have hcnt := hchar.2.2.1
      have hcell : cellAt b i j < 512 := hinv.2.1 i j hi hj
      have htry : ∀ l, (∀ d ∈ l, 1 ≤ d ∧ d ≤ 9) →
          ∃ r b'', tryDigits (solveFuel m) b i j l = some (r, b'') := by
        intro l
        induction l with
        | nil => intro _; exact ⟨false, b, tryDigits_nil _ _ _ _⟩
        | cons d ds IHl =>
          intro hds
          have hd := hds d (List.mem_cons_self _ _)
          obtain ⟨b1, hb1⟩ := setFuel_total hinv.1 hinv.2.1 hi hj hd.1 hd.2
          have hinv1 : BInv b1 := setFuel_inv hinv hi hj hd.1 hd.2 hb1
          have hpost := setFuel_post hinv.1 hinv.2.1 hi hj hd.1 hd.2 hb1
          have hun1 : unres b1 < m :=
            lt_of_lt_of_le (unres_lt hinv.2.1 hi hj hd.1 hd.2 hpost hcnt) (by omega)
          obtain ⟨r1, b2, hb2⟩ := IH m (Nat.lt_succ_self m) b1 hinv1 hun1
          cases r1 with
          | true => exact ⟨true, b2, tryDigits_step_true hb1 hb2⟩
          | false =>
            obtain ⟨r, b'', hb''⟩ := IHl (fun d' hd' => hds d' (List.mem_cons_of_mem _ hd'))
            refine ⟨r, b'', ?_⟩
            rw [tryDigits_step_false hb1 hb2]
            exact hb''
      obtain ⟨r, b'', hb''⟩ := htry (digitsL (cellAt b i j))
        (fun d hd => digitsL_range _ hcell d hd)
      refine ⟨r, b'', ?_⟩
      rw [solveFuel_succ, hlow]
      exact hb''

/-! ### Completeness: an admissible solution grid forces success -/

theorem solveFuel_complete : ∀ n b g, BInv b → ValidG g → admits g b → unres b < n →
    ∃ b', solveFuel n b = some (true, b') := by
  intro n
  induction n using Nat.strong_induction_on with
  | _ n IH =>
  intro b g hinv hg hadm hun
  cases n with
  | zero => omega
  | succ m =>
    cases hlow : lowestF b with
    | none =>
      have hall := (lowestF_none_char hinv.2.1).mp hlow
      have hsolved : solvedB b = true := by
        rw [solvedB, List.all_eq_true]
        intro p hp
        have hpb := mem_allPos.mp hp
        have hle := hall p hpb.1 hpb.2
        have hge : 1 ≤ countC (cellAt b p.1 p.2) :=
          isSetB_one_le_count _ (hinv.2.1 p.1 p.2 hpb.1 hpb.2) (g p)
            (by have := hg.1 p; omega) (hg.1 p).1 (hadm p hpb.1 hpb.2)
        exact (single_iff_count _ (hinv.2.1 p.1 p.2 hpb.1 hpb.2)).mpr (by omega)
      refine ⟨b, ?_⟩
      rw [solveFuel_succ, hlow]
      rw [hsolved]
    | some ij =>
      obtain ⟨i, j⟩ := ij
      have hchar := lowestF_some_char hinv.2.1 hlow
      have hi := hchar.1
      have hj := hchar.2.1
      have hcnt := hchar.2.2.1
      have hcell : cellAt b i j < 512 := hinv.2.1 i j hi hj
      have hmem : g (i, j) ∈ digitsL (cellAt b i j) :=
        (mem_digitsL _ hcell (g (i, j)) (by have := hg.1 (i, j); omega)
          (hg.1 (i, j)).1).mpr (hadm (i, j) hi hj)
      have htry : ∀ l, (∀ d ∈ l, 1 ≤ d ∧ d ≤ 9) → g (i, j) ∈ l →
          ∃ b'', tryDigits (solveFuel m) b i j l = some (true, b'') := by
        intro l
        induction l with
        | nil => intro _ hm; exact absurd hm (by simp)
        | cons d ds IHl =>
          intro hds hm
          have hd := hds d (List.mem_cons_self _ _)
          obtain ⟨b1, hb1⟩ := setFuel_total hinv.1 hinv.2.1 hi hj hd.1 hd.2
          have hinv1 : BInv b1 := setFuel_inv hinv hi hj hd.1 hd.2 hb1
          have hpost := setFuel_post hinv.1 hinv.2.1 hi hj hd.1 hd.2 hb1
          have hun1 : unres b1 < m :=
            lt_of_lt_of_le (unres_lt hinv.2.1 hi hj hd.1 hd.2 hpost hcnt) (by omega)
          obtain ⟨r1, b2, hb2⟩ := solveFuel_total m b1 hinv1 hun1
          cases r1 with
          | true => exact ⟨b2, tryDigits_step_true hb1 hb2⟩
          | false =>
            have hdg : d ≠ g (i, j) := by
              intro hde
              have hadm1 : admits g b1 := hpost.keep g hg hadm hde
              obtain ⟨b3, hb3⟩ := IH m (Nat.lt_succ_self m) b1 g hinv1 hg hadm1 hun1
              rw [hb3] at hb2
              injection hb2 with h
              injection h with h1 _
              exact absurd h1 (by simp)
            have hm' : g (i, j) ∈ ds := by
              rcases List.mem_cons.mp hm with hm | hm
              · exact absurd hm.symm hdg
              · exact hm
            obtain ⟨b'', hb''⟩ := IHl (fun d' hd' => hds d' (List.mem_cons_of_mem _ hd')) hm'
            refine ⟨b'', ?_⟩
            rw [tryDigits_step_false hb1 hb2]
            exact hb''
      obtain ⟨b'', hb''⟩ := htry (digitsL (cellAt b i j))
        (fun d hd => digitsL_range _ hcell d hd) hmem
      refine ⟨b'', ?_⟩
      rw [solveFuel_succ, hlow]
      exact hb''

/-! ### A zero cell makes the search fail -/

theorem countC_zero : countC 0 = 0 := rfl

theorem solveFuel_stuck : ∀ n b p1 p2 r b', BInv b → p1 < 9 → p2 < 9 →
    cellAt b p1 p2 = 0 → solveFuel n b = some (r, b') → r = false := by
  intro n
  induction n using Nat.strong_induction_on with
  | _ n IH =>
  intro b p1 p2 r b' hinv hp1 hp2 hzero heq
  cases n with
  | zero => rw [solveFuel_zero] at heq; exact absurd heq (by simp)
  | succ m =>
    rw [solveFuel_succ] at heq
    cases hlow : lowestF b with
    | none =>
      rw [hlow] at heq
      simp only at heq
      injection heq with h
      injection h with h1 _
      have hsv : solvedB b = false := by
        cases hsv : solvedB b with
        | false => rfl
        | true =>
          have hall := List.all_eq_true.mp hsv (p1, p2) (mem_allPos.mpr ⟨hp1, hp2⟩)
          have hs : singleB (cellAt b p1 p2) = true := hall
          rw [hzero] at hs
          exact absurd hs (by rw [singleB_zero]; simp)
      rw [hsv] at h1
      exact h1.symm
    | some ij =>
      obtain ⟨i, j⟩ := ij
      rw [hlow] at heq
      have hchar := lowestF_some_char hinv.2.1 hlow
      have hi := hchar.1
      have hj := hchar.2.1
      have hcnt := hchar.2.2.1
      have hne : ((p1 : ℕ), (p2 : ℕ)) ≠ (i, j) := by
        intro he
        injection he with f1 f2
        rw [f1, f2] at hzero
        rw [hzero] at hcnt
        rw [countC_zero] at hcnt
        omega
      have htry : ∀ l, (∀ d ∈ l, 1 ≤ d ∧ d ≤ 9) → ∀ r0 b0,
          tryDigits (solveFuel m) b i j l = some (r0, b0) → r0 = false := by
        intro l
        induction l with
        | nil =>
          intro _ r0 b0 heq0
          rw [tryDigits_nil] at heq0
          injection heq0 with h
          injection h with h1 _
          exact h1.symm
        | cons d ds IHl =>
          intro hds r0 b0 heq0
          have hd := hds d (List.mem_cons_self _ _)
          rw [tryDigits_cons] at heq0
          cases hset : setFuel 730 b i j d with
          | none => rw [hset] at heq0; exact absurd heq0 (by simp)
          | some b1 =>
            rw [hset] at heq0
            have hpost := setFuel_post hinv.1 hinv.2.1 hi hj hd.1 hd.2 hset
            have hinv1 : BInv b1 := setFuel_inv hinv hi hj hd.1 hd.2 hset
            have hzero1 : cellAt b1 p1 p2 = 0 := by
              have hsub : subC (cellAt b1 p1 p2) (cellAt b p1 p2) :=
                hpost.shrink (p1, p2) hp1 hp2 hne
              have hle := countC_mono hsub (hpost.cwf p1 p2 hp1 hp2)
                (hinv.2.1 p1 p2 hp1 hp2)
              rw [hzero, countC_zero] at hle
              exact (countC_eq_zero _ (hpost.cwf p1 p2 hp1 hp2)).mp (by omega)
            have heq2 : (match solveFuel m b1 with
                | none => none
                | some (true, b2) => some (true, b2)
                | some (false, _) => tryDigits (solveFuel m) b i j ds) =
                some (r0, b0) := heq0
            cases hr : solveFuel m b1 with
            | none => rw [hr] at heq2; exact absurd heq2 (by simp)
            | some rb =>
              obtain ⟨r1, b2⟩ := rb
              have hr1 : r1 = false :=
                IH m (Nat.lt_succ_self m) b1 p1 p2 r1 b2 hinv1 hp1 hp2 hzero1 hr
              subst hr1
              rw [hr] at heq2
              exact IHl (fun d' hd' => hds d' (List.mem_cons_of_mem _ hd')) r0 b0 heq2
      exact htry (digitsL (cellAt b i j))
        (fun d hd => digitsL_range _ (hinv.2.1 i j hi hj) d hd) r b' heq

/-! ### Applying seed lists -/

theorem SetB_eq {b : Board} {i j d : ℕ} {b' : Board}
    (h : setFuel 730 b i j d = some b') : SetB b i j d = b' := by
  rw [SetB, h]
  rfl

/-- Each seed gives in-range coordinates and digit. -/
def validSeeds (seeds : List (ℕ × ℕ × ℕ)) : Prop :=
  ∀ s ∈ seeds, s.1 < 9 ∧ s.2.1 < 9 ∧ 1 ≤ s.2.2 ∧ s.2.2 ≤ 9

theorem cellAt_empty {i j : ℕ} (hi : i < 9) (hj : j < 9) : cellAt emptyBoard i j = 511 := by
  rw [cellAt, emptyBoard, List.getD_eq_getElem?_getD, List.getElem?_replicate,
    if_pos (by omega : 9 * i + j < 81)]
  rfl

theorem emptyBoard_inv : BInv emptyBoard := by
  refine ⟨by simp [emptyBoard], fun p q hp hq => ?_, fun p hp1 hp2 hs => ?_⟩
  · rw [cellAt_empty hp hq]
    omega
  · rw [cellAt_empty hp1 hp2] at hs
    exact absurd hs (by decide)

theorem foldSeeds_inv : ∀ (seeds : List (ℕ × ℕ × ℕ)) (b : Board), BInv b →
    validSeeds seeds →
    BInv (seeds.foldl (fun b s => SetB b s.1 s.2.1 s.2.2) b) := by
  intro seeds
  induction seeds with
  | nil => intro b hinv _; exact hinv
  | cons s rest IH =>
    intro b hinv hv
    have hs := hv s (List.mem_cons_self _ _)
    obtain ⟨b', hb'⟩ := setFuel_total hinv.1 hinv.2.1 hs.1 hs.2.1 hs.2.2.1 hs.2.2.2
    rw [List.foldl_cons, SetB_eq hb']
    exact IH b' (setFuel_inv hinv hs.1 hs.2.1 hs.2.2.1 hs.2.2.2 hb')
      (fun s' hs' => hv s' (List.mem_cons_of_mem _ hs'))

theorem applySeeds_inv {seeds : List (ℕ × ℕ × ℕ)} (hv : validSeeds seeds) :
    BInv (applySeeds seeds) :=
  foldSeeds_inv seeds emptyBoard emptyBoard_inv hv

/-! ### From the propagation invariant to the sudoku invariant -/

theorem sharesUnit_symm {p q : ℕ × ℕ} (h : sharesUnit p q) : sharesUnit q p := by
  rcases h with h | h | h
  · exact Or.inl h.symm
  · exact Or.inr (Or.inl h.symm)
  · exact Or.inr (Or.inr ⟨h.1.symm, h.2.symm⟩)

theorem propagated_noPeerDup {b : Board}
    (hcells : ∀ p0 q0, p0 < 9 → q0 < 9 → cellAt b p0 q0 < 512)
    (hP : Propagated b) : noPeerDup b := by
  intro p q hp1 hp2 hq1 hq2 hne hshare hsp hsq heq
  have hqm : (q.1, q.2) ∈ peerList p.1 p.2 := by
    rw [mem_peerList hp1 hp2]
    refine ⟨hq1, hq2, ?_, sharesUnit_symm hshare⟩
    intro he
    exact hne (by
      obtain ⟨a1, a2⟩ := p
      obtain ⟨b1, b2⟩ := q
      injection he with f1 f2
      simp only at f1 f2
      rw [f1, f2])
  have hdropped := hP p hp1 hp2 hsp (q.1, q.2) hqm
  have hself : isSetB (cellAt b q.1 q.2) (digitC (cellAt b q.1 q.2)) = true :=
    (single_isSet_iff _ (hcells q.1 q.2 hq1 hq2) _
      (by have := single_digit_bounds _ (hcells q.1 q.2 hq1 hq2) hsq; omega)
      (single_digit_bounds _ (hcells q.1 q.2 hq1 hq2) hsq).1 hsq).mpr rfl
  rw [← heq] at hself
  have hdropped' : isSetB (cellAt b q.1 q.2) (digitC (cellAt b p.1 p.2)) = false :=
    hdropped
  rw [hself] at hdropped'
  exact absurd hdropped' (by simp)

/-! ### A solved, propagated board is a valid sudoku grid -/

theorem countP_le_one_unique : ∀ (l : List (ℕ × ℕ)) (P : (ℕ × ℕ) → Bool),
    l.Nodup → (∀ x ∈ l, ∀ y ∈ l, P x = true → P y = true → x = y) →
    l.countP P ≤ 1 := by
  intro l P
  induction l with
  | nil => intro _ _; simp [List.countP_nil]
  | cons a l' IH =>
    intro hnd huniq
    rw [List.countP_cons]
    cases hpa : P a with
    | false =>
      have h1 := IH (List.nodup_cons.mp hnd).2
        (fun x hx y hy => huniq x (List.mem_cons_of_mem _ hx) y (List.mem_cons_of_mem _ hy))
      have e : (if (false = true) then (1:ℕ) else 0) = 0 := rfl
      omega
    | true =>
      have hz : l'.countP P = 0 := by
        rw [List.countP_eq_zero]
        intro x hx hPx
        have := huniq x (List.mem_cons_of_mem _ hx) a (List.mem_cons_self _ _) hPx hpa
        exact (List.nodup_cons.mp hnd).1 (this ▸ hx)
      have e : (if (true = true) then (1:ℕ) else 0) = 1 := rfl
      omega

theorem unit_exact_of_solved {b : Board} (ps : List (ℕ × ℕ))
    (hlen : ps.length = 9) (hbnd : ∀ p ∈ ps, p.1 < 9 ∧ p.2 < 9) (hnd : ps.Nodup)
    (hsh : ∀ p ∈ ps, ∀ q ∈ ps, p ≠ q → sharesUnit p q)
    (hcells : ∀ p0 q0, p0 < 9 → q0 < 9 → cellAt b p0 q0 < 512)
    (hsolved : solvedB b = true) (hdup : noPeerDup b) : unitExact b ps := by
  have hsingle : ∀ p ∈ ps, singleB (cellAt b p.1 p.2) = true := by
    intro p hp
    exact List.all_eq_true.mp hsolved p (mem_allPos.mpr (hbnd p hp))
  have hdig : ∀ p ∈ ps, 1 ≤ digitC (cellAt b p.1 p.2) ∧ digitC (cellAt b p.1 p.2) ≤ 9 := by
    intro p hp
    exact single_digit_bounds _ (hcells p.1 p.2 (hbnd p hp).1 (hbnd p hp).2) (hsingle p hp)
  have hinj : ∀ x ∈ ps, ∀ y ∈ ps,
      digitC (cellAt b x.1 x.2) = digitC (cellAt b y.1 y.2) → x = y := by
    intro x hx y hy he
    by_contra hne
    exact hdup x y (hbnd x hx).1 (hbnd x hx).2 (hbnd y hy).1 (hbnd y hy).2 hne
      (hsh x hx y hy hne) (hsingle x hx) (hsingle y hy) he
  intro d hd1 hd9
  have hex : ∃ p ∈ ps, digitC (cellAt b p.1 p.2) = d := by
    have himg : (ps.toFinset.image (fun p => digitC (cellAt b p.1 p.2))) =
        Finset.Icc 1 9 := by
      apply Finset.eq_of_subset_of_card_le
      · intro x hx
        rcases Finset.mem_image.mp hx with ⟨p, hp, he⟩
        have := hdig p (List.mem_toFinset.mp hp)
        rw [← he]
        exact Finset.mem_Icc.mpr (by omega)
      · rw [Nat.card_Icc]
        rw [Finset.card_image_of_injOn (fun x hx y hy he =>
          hinj x (List.mem_toFinset.mp hx) y (List.mem_toFinset.mp hy) he)]
        rw [List.toFinset_card_of_nodup hnd, hlen]
    have hdm : d ∈ Finset.Icc 1 9 := Finset.mem_Icc.mpr ⟨hd1, hd9⟩
    rw [← himg] at hdm
    rcases Finset.mem_image.mp hdm with ⟨p, hp, he⟩
    exact ⟨p, List.mem_toFinset.mp hp, he⟩
  rw [← List.countP_eq_length_filter]
  have hle : ps.countP (fun p => decide (digitC (cellAt b p.1 p.2) = d)) ≤ 1 := by
    refine countP_le_one_unique ps _ hnd ?_
    intro x hx y hy hPx hPy
    exact hinj x hx y hy ((of_decide_eq_true hPx).trans (of_decide_eq_true hPy).symm)
  have hge : 0 < ps.countP (fun p => decide (digitC (cellAt b p.1 p.2) = d)) := by
    rw [List.countP_pos_iff]
    rcases hex with ⟨p, hp, he⟩
    exact ⟨p, hp, decide_eq_true he⟩
  omega


/-! ### C1: the source `Set` refines the spec-worded assignment -/

theorem specPeers_nil (recur : Board → ℕ → ℕ → ℕ → Option Board) (d : ℕ) (b : Board) :
    specPeers recur d b [] = some b := rfl

theorem specPeers_cons (recur : Board → ℕ → ℕ → ℕ → Option Board) (d : ℕ) (b : Board)
    (p q : ℕ) (rest : List (ℕ × ℕ)) :
    specPeers recur d b ((p, q) :: rest) =
      if isSetB (cellAt b p q) d then
        if countC (cellDrop (cellAt b p q) d) = 1 then
          match recur (writeCell b p q (cellDrop (cellAt b p q) d)) p q
              ((digitsL (cellDrop (cellAt b p q) d)).headD 0) with
          | none => none
          | some b'' => specPeers recur d b'' rest
        else specPeers recur d (writeCell b p q (cellDrop (cellAt b p q) d)) rest
      else specPeers recur d b rest := rfl

theorem assignSpec_succ (n : ℕ) (b : Board) (i j d : ℕ) :
    assignSpec (n + 1) b i j d =
      specPeers (assignSpec n) d (writeCell b i j (1 <<< (d - 1))) (peerList i j) := rfl

theorem setFuel_eq_assignSpec : ∀ n b i j d, b.length = 81 →
    (∀ p q, p < 9 → q < 9 → cellAt b p q < 512) → i < 9 → j < 9 → 1 ≤ d → d ≤ 9 →
    setFuel n b i j d = assignSpec n b i j d := by
  intro n
  induction n using Nat.strong_induction_on with
  | _ n IH =>
  intro b i j d hlen hcells hi hj hd1 hd9
  cases n with
  | zero => rfl
  | succ m =>
    rw [setFuel_succ, assignSpec_succ, cellSet_clear]
    have hidx : 9 * i + j < b.length := by rw [hlen]; omega
    have hwlen : (writeCell b i j (1 <<< (d - 1))).length = 81 := by
      rw [length_writeCell, hlen]
    have hwcells : ∀ p q, p < 9 → q < 9 →
        cellAt (writeCell b i j (1 <<< (d - 1))) p q < 512 := by
      intro p q hp hq
      by_cases hij : (p, q) = (i, j)
      · injection hij with e1 e2
        subst e1; subst e2
        rw [cellAt_writeCell_self hidx _]
        exact shift_lt_512 d (by omega) hd1
      · rw [cellAt_writeCell_ne (idx_ne hj hq (Ne.symm hij)) _]
        exact hcells p q hp hq
    have inner : ∀ (l : List (ℕ × ℕ)) (b0 : Board), b0.length = 81 →
        (∀ p q, p < 9 → q < 9 → cellAt b0 p q < 512) → (∀ r ∈ l, r.1 < 9 ∧ r.2 < 9) →
        goPeers (setFuel m) d b0 l = specPeers (assignSpec m) d b0 l := by
      intro l
      induction l with
      | nil => intro b0 _ _ _; rfl
      | cons r rest IHl =>
        obtain ⟨p, q⟩ := r
        intro b0 h0len h0cells hbl
        have hp9 : p < 9 := (hbl (p, q) (List.mem_cons_self _ _)).1
        have hq9 : q < 9 := (hbl (p, q) (List.mem_cons_self _ _)).2
        have hbl' : ∀ r ∈ rest, r.1 < 9 ∧ r.2 < 9 :=
          fun r hr => hbl r (List.mem_cons_of_mem _ hr)
        rw [goPeers_cons, specPeers_cons]
        by_cases hs : isSetB (cellAt b0 p q) d = true
        case neg =>
          rw [if_neg (by simpa using hs), if_neg (by simpa using hs)]
          exact IHl b0 h0len h0cells hbl'
        case pos =>
          rw [if_pos hs, if_pos hs]
          have hc' : cellDrop (cellAt b0 p q) d < 512 :=
            cellDrop_lt_512 (h0cells p q hp9 hq9) d
          have h0idx : 9 * p + q < b0.length := by rw [h0len]; omega
          have h1len : (writeCell b0 p q (cellDrop (cellAt b0 p q) d)).length = 81 := by
            rw [length_writeCell, h0len]
          have h1cells : ∀ a c, a < 9 → c < 9 →
              cellAt (writeCell b0 p q (cellDrop (cellAt b0 p q) d)) a c < 512 := by
            intro a c ha hc
            by_cases hac : (a, c) = (p, q)
            · injection hac with e1 e2
              subst e1; subst e2
              rw [cellAt_writeCell_self h0idx _]
              exact hc'
            · rw [cellAt_writeCell_ne (idx_ne hq9 hc (Ne.symm hac)) _]
              exact h0cells a c ha hc
          by_cases hsng : singleB (cellDrop (cellAt b0 p q) d) = true
          case neg =>
            have hcnt : ¬ countC (cellDrop (cellAt b0 p q) d) = 1 := by
              intro hc1
              exact hsng ((single_iff_count _ hc').mpr hc1)
            rw [if_neg (by simpa using hsng), if_neg hcnt]
            exact IHl _ h1len h1cells hbl'
          case pos =>
            have hcnt : countC (cellDrop (cellAt b0 p q) d) = 1 :=
              (single_iff_count _ hc').mp hsng
            rw [if_pos hsng, if_pos hcnt]
            rw [single_headD _ hc' hsng]
            have hdig := single_digit_bounds _ hc' hsng
            rw [← IH m (Nat.lt_succ_self m) _ p q _ h1len h1cells hp9 hq9 hdig.1 hdig.2]
            cases hrec : setFuel m (writeCell b0 p q (cellDrop (cellAt b0 p q) d)) p q
                (digitC (cellDrop (cellAt b0 p q) d)) with
            | none => rfl
            | some b'' =>
              have hpost := setFuel_post h1len h1cells hp9 hq9 hdig.1 hdig.2 hrec
              exact IHl b'' hpost.len hpost.cwf hbl'
    exact inner (peerList i j) _ hwlen hwcells (peerList_bounds hi hj)

/-! ### The three kinds of units -/

theorem rowList_basic (i : ℕ) (hi : i < 9) :
    (rowList i).length = 9 ∧ (∀ p ∈ rowList i, p.1 < 9 ∧ p.2 < 9) ∧
    (rowList i).Nodup ∧ (∀ p ∈ rowList i, ∀ q ∈ rowList i, p ≠ q → sharesUnit p q) := by
  refine ⟨rfl, ?_, ?_, ?_⟩
  · intro p hp
    rcases List.mem_map.mp hp with ⟨j0, hj0, he⟩
    rw [← he]
    exact ⟨hi, List.mem_range.mp hj0⟩
  · exact List.Nodup.map (fun a b h => by injection h) (List.nodup_range 9)
  · intro p hp q hq _
    rcases List.mem_map.mp hp with ⟨j0, _, he⟩
    rcases List.mem_map.mp hq with ⟨j1, _, he'⟩
    rw [← he, ← he']
    exact Or.inl rfl

theorem colList_basic (j : ℕ) (hj : j < 9) :
    (colList j).length = 9 ∧ (∀ p ∈ colList j, p.1 < 9 ∧ p.2 < 9) ∧
    (colList j).Nodup ∧ (∀ p ∈ colList j, ∀ q ∈ colList j, p ≠ q → sharesUnit p q) := by
  refine ⟨rfl, ?_, ?_, ?_⟩
  · intro p hp
    rcases List.mem_map.mp hp with ⟨i0, hi0, he⟩
    rw [← he]
    exact ⟨List.mem_range.mp hi0, hj⟩
  · exact List.Nodup.map (fun a b h => by injection h) (List.nodup_range 9)
  · intro p hp q hq _
    rcases List.mem_map.mp hp with ⟨i0, _, he⟩
    rcases List.mem_map.mp hq with ⟨i1, _, he'⟩
    rw [← he, ← he']
    exact Or.inr (Or.inl rfl)

theorem mem_boxList {bi bj : ℕ} {p : ℕ × ℕ} :
    p ∈ boxList bi bj ↔ ∃ a < 3, ∃ c < 3, p = (3 * bi + a, 3 * bj + c) := by
  constructor
  · intro hp
    rcases List.mem_flatMap.mp hp with ⟨a, ha, hm⟩
    rcases List.mem_map.mp hm with ⟨c, hc, he⟩
    exact ⟨a, List.mem_range.mp ha, c, List.mem_range.mp hc, he.symm⟩
  · rintro ⟨a, ha, c, hc, he⟩
    subst he
    exact List.mem_flatMap.mpr ⟨a, List.mem_range.mpr ha,
      List.mem_map.mpr ⟨c, List.mem_range.mpr hc, rfl⟩⟩

theorem boxList_basic (bi bj : ℕ) (hbi : bi < 3) (hbj : bj < 3) :
    (boxList bi bj).length = 9 ∧ (∀ p ∈ boxList bi bj, p.1 < 9 ∧ p.2 < 9) ∧
    (boxList bi bj).Nodup ∧
    (∀ p ∈ boxList bi bj, ∀ q ∈ boxList bi bj, p ≠ q → sharesUnit p q) := by
  refine ⟨rfl, ?_, ?_, ?_⟩
  · intro p hp
    rcases mem_boxList.mp hp with ⟨a, ha, c, hc, he⟩
    subst he
    exact ⟨by omega, by omega⟩
  · rw [show boxList bi bj =
      [(3 * bi, 3 * bj), (3 * bi, 3 * bj + 1), (3 * bi, 3 * bj + 2),
       (3 * bi + 1, 3 * bj), (3 * bi + 1, 3 * bj + 1), (3 * bi + 1, 3 * bj + 2),
       (3 * bi + 2, 3 * bj), (3 * bi + 2, 3 * bj + 1), (3 * bi + 2, 3 * bj + 2)] from rfl]
    simp [List.nodup_cons, Prod.ext_iff]
  · intro p hp q hq _
    rcases mem_boxList.mp hp with ⟨a, ha, c, hc, he⟩
    rcases mem_boxList.mp hq with ⟨a', ha', c', hc', he'⟩
    subst he; subst he'
    refine Or.inr (Or.inr ⟨?_, ?_⟩)
    · show (3 * bi + a) / 3 = (3 * bi + a') / 3
      omega
    · show (3 * bj + c) / 3 = (3 * bj + c') / 3
      omega

theorem validB_of_solved {b : Board}
    (hcells : ∀ p q, p < 9 → q < 9 → cellAt b p q < 512)
    (hP : Propagated b) (hs : solvedB b = true) : validB b := by
  have hdup := propagated_noPeerDup hcells hP
  refine ⟨fun i hi => ?_, fun j hj => ?_, fun bi bj hbi hbj => ?_⟩
  · obtain ⟨h1, h2, h3, h4⟩ := rowList_basic i hi
    exact unit_exact_of_solved (rowList i) h1 h2 h3 h4 hcells hs hdup
  · obtain ⟨h1, h2, h3, h4⟩ := colList_basic j hj
    exact unit_exact_of_solved (colList j) h1 h2 h3 h4 hcells hs hdup
  · obtain ⟨h1, h2, h3, h4⟩ := boxList_basic bi bj hbi hbj
    exact unit_exact_of_solved (boxList bi bj) h1 h2 h3 h4 hcells hs hdup

/-! ### Concrete solution grids -/

theorem getD_one_bounds (l : List ℕ) (hl : ∀ x ∈ l, 1 ≤ x ∧ x ≤ 9) (k : ℕ) :
    1 ≤ l.getD k 1 ∧ l.getD k 1 ≤ 9 := by
  by_cases hk : k < l.length
  · rw [List.getD_eq_getElem?_getD, List.getElem?_eq_getElem hk]
    exact hl _ (List.getElem_mem hk)
  · rw [List.getD_eq_default _ _ (by omega)]
    omega

/-- A digit grid read off a row-major list of digits (out-of-range default 1
keeps the range property unconditional). -/
def gridF (l : List ℕ) : ℕ × ℕ → ℕ := fun p => l.getD (9 * p.1 + p.2) 1

theorem gridF_range {l : List ℕ} (hl : ∀ x ∈ l, 1 ≤ x ∧ x ≤ 9) :
    ∀ p : ℕ × ℕ, 1 ≤ gridF l p ∧ gridF l p ≤ 9 :=
  fun _ => getD_one_bounds l hl _

theorem gridF_valid {l : List ℕ} (hl : ∀ x ∈ l, 1 ≤ x ∧ x ≤ 9)
    (hb : allPos.all
      (fun p => (peerList p.1 p.2).all (fun q => gridF l p != gridF l q)) = true) :
    ValidG (gridF l) := by
  refine ⟨gridF_range hl, ?_⟩
  intro p hp1 hp2 q hq
  have h1 := List.all_eq_true.mp hb p (mem_allPos.mpr ⟨hp1, hp2⟩)
  have h2 := List.all_eq_true.mp h1 q hq
  intro he
  rw [he] at h2
  simp at h2

/-- The unique solution of the hardcoded puzzle, row-major. -/
def solGrid : List ℕ :=
  [8,1,2,7,5,3,6,4,9, 9,4,3,6,8,2,1,7,5, 6,7,5,4,9,1,2,8,3,
   1,5,4,2,3,7,8,9,6, 3,6,9,8,4,5,7,2,1, 2,8,7,1,6,9,5,3,4,
   5,2,1,9,7,4,3,6,8, 4,3,8,5,2,6,9,1,7, 7,9,6,3,1,8,4,5,2]

theorem solGrid_valid : ValidG (gridF solGrid) :=
  gridF_valid (by decide) (by decide)

theorem hardSeeds_match : ∀ s ∈ hardSeeds, s.2.2 = gridF solGrid (s.1, s.2.1) := by
  decide

/-! ### Admissibility through seed application -/

theorem isSetB_511 : ∀ f < 10, 1 ≤ f → isSetB 511 f = true := by decide

theorem admits_empty {g : ℕ × ℕ → ℕ} (hr : ∀ p, 1 ≤ g p ∧ g p ≤ 9) :
    admits g emptyBoard := by
  intro p hp1 hp2
  rw [cellAt_empty hp1 hp2]
  exact isSetB_511 (g p) (by have := hr p; omega) (hr p).1

theorem foldSeeds_admits : ∀ (seeds : List (ℕ × ℕ × ℕ)) (b : Board) (g : ℕ × ℕ → ℕ),
    ValidG g → BInv b → validSeeds seeds → (∀ s ∈ seeds, s.2.2 = g (s.1, s.2.1)) →
    admits g b →
    admits g (seeds.foldl (fun b s => SetB b s.1 s.2.1 s.2.2) b) := by
  intro seeds
  induction seeds with
  | nil => intro b g _ _ _ _ hadm; exact hadm
  | cons s rest IH =>
    intro b g hg hinv hv hmatch hadm
    have hs := hv s (List.mem_cons_self _ _)
    obtain ⟨b', hb'⟩ := setFuel_total hinv.1 hinv.2.1 hs.1 hs.2.1 hs.2.2.1 hs.2.2.2
    have hpost := setFuel_post hinv.1 hinv.2.1 hs.1 hs.2.1 hs.2.2.1 hs.2.2.2 hb'
    rw [List.foldl_cons, SetB_eq hb']
    exact IH b' g hg (setFuel_inv hinv hs.1 hs.2.1 hs.2.2.1 hs.2.2.2 hb')
      (fun s' hs' => hv s' (List.mem_cons_of_mem _ hs'))
      (fun s' hs' => hmatch s' (List.mem_cons_of_mem _ hs'))
      (hpost.keep g hg hadm (hmatch s (List.mem_cons_self _ _)))

/-! ### Cells only shrink under later seeds that do not target them -/

theorem foldl_keep_sub : ∀ (seeds : List (ℕ × ℕ × ℕ)) (b : Board) (p1 p2 u : ℕ),
    BInv b → validSeeds seeds → p1 < 9 → p2 < 9 →
    (∀ s ∈ seeds, (s.1, s.2.1) ≠ (p1, p2)) → subC (cellAt b p1 p2) u →
    BInv (seeds.foldl (fun b s => SetB b s.1 s.2.1 s.2.2) b) ∧
    subC (cellAt (seeds.foldl (fun b s => SetB b s.1 s.2.1 s.2.2) b) p1 p2) u := by
  intro seeds
  induction seeds with
  | nil => intro b p1 p2 u hinv _ _ _ _ hsub; exact ⟨hinv, hsub⟩
  | cons s rest IH =>
    intro b p1 p2 u hinv hv hp1 hp2 hne hsub
    have hs := hv s (List.mem_cons_self _ _)
    obtain ⟨b', hb'⟩ := setFuel_total hinv.1 hinv.2.1 hs.1 hs.2.1 hs.2.2.1 hs.2.2.2
    have hpost := setFuel_post hinv.1 hinv.2.1 hs.1 hs.2.1 hs.2.2.1 hs.2.2.2 hb'
    rw [List.foldl_cons, SetB_eq hb']
    have hshr : subC (cellAt b' p1 p2) (cellAt b p1 p2) :=
      hpost.shrink (p1, p2) hp1 hp2 (Ne.symm (hne s (List.mem_cons_self _ _)))
    exact IH b' p1 p2 u (setFuel_inv hinv hs.1 hs.2.1 hs.2.2.1 hs.2.2.2 hb')
      (fun s' hs' => hv s' (List.mem_cons_of_mem _ hs'))
      hp1 hp2 (fun s' hs' => hne s' (List.mem_cons_of_mem _ hs'))
      (subC_trans hshr hsub)

theorem validSeeds_append {l1 l2 : List (ℕ × ℕ × ℕ)} (h : validSeeds (l1 ++ l2)) :
    validSeeds l1 ∧ validSeeds l2 :=
  ⟨fun s hs => h s (List.mem_append.mpr (Or.inl hs)),
   fun s hs => h s (List.mem_append.mpr (Or.inr hs))⟩

theorem validSeeds_cons {s : ℕ × ℕ × ℕ} {l : List (ℕ × ℕ × ℕ)}
    (h : validSeeds (s :: l)) :
    (s.1 < 9 ∧ s.2.1 < 9 ∧ 1 ≤ s.2.2 ∧ s.2.2 ≤ 9) ∧ validSeeds l :=
  ⟨h s (List.mem_cons_self _ _), fun s' hs' => h s' (List.mem_cons_of_mem _ hs')⟩

theorem subC_zero_eq {c : ℕ} (hc : c < 512) (h : subC c 0) : c = 0 := by
  have hle := countC_mono h hc (by omega)
  rw [countC_zero] at hle
  exact (countC_eq_zero _ hc).mp (by omega)

/-! ### A duplicated row digit leaves a permanently empty cell -/

theorem dupRow_empty {s1 s2 s3 : List (ℕ × ℕ × ℕ)} {i j1 j2 d : ℕ}
    (hv : validSeeds (s1 ++ ((i, j1, d) :: (s2 ++ ((i, j2, d) :: s3)))))
    (hj : j1 ≠ j2)
    (h2 : ∀ s ∈ s2, (s.1, s.2.1) ≠ (i, j1))
    (h3 : ∀ s ∈ s3, (s.1, s.2.1) ≠ (i, j1)) :
    BInv (applySeeds (s1 ++ ((i, j1, d) :: (s2 ++ ((i, j2, d) :: s3))))) ∧
    cellAt (applySeeds (s1 ++ ((i, j1, d) :: (s2 ++ ((i, j2, d) :: s3))))) i j1 = 0 := by
  obtain ⟨hv1, hvr⟩ := validSeeds_append hv
  obtain ⟨hx, hvr2⟩ := validSeeds_cons hvr
  obtain ⟨hv2, hvr3⟩ := validSeeds_append hvr2
  obtain ⟨hy, hv3⟩ := validSeeds_cons hvr3
  have hi : i < 9 := hx.1
  have hj1 : j1 < 9 := hx.2.1
  have hd1 : 1 ≤ d := hx.2.2.1
  have hd9 : d ≤ 9 := hx.2.2.2
  have hj2 : j2 < 9 := hy.2.1
  have hrw : applySeeds (s1 ++ ((i, j1, d) :: (s2 ++ ((i, j2, d) :: s3)))) =
      List.foldl (fun b s => SetB b s.1 s.2.1 s.2.2)
        (SetB (List.foldl (fun b s => SetB b s.1 s.2.1 s.2.2)
          (SetB (List.foldl (fun b s => SetB b s.1 s.2.1 s.2.2) emptyBoard s1) i j1 d)
          s2) i j2 d) s3 := by
    simp only [applySeeds]
    rw [List.foldl_append, List.foldl_cons, List.foldl_append, List.foldl_cons]
  rw [hrw]
  have hinv1 : BInv (List.foldl (fun b s => SetB b s.1 s.2.1 s.2.2) emptyBoard s1) :=
    foldSeeds_inv s1 emptyBoard emptyBoard_inv hv1
  obtain ⟨b2, hb2⟩ := setFuel_total hinv1.1 hinv1.2.1 hi hj1 hd1 hd9
  have hpost2 := setFuel_post hinv1.1 hinv1.2.1 hi hj1 hd1 hd9 hb2
  have hinv2 : BInv b2 := setFuel_inv hinv1 hi hj1 hd1 hd9 hb2
  rw [SetB_eq hb2]
  obtain ⟨hinv3, hsub3⟩ := foldl_keep_sub s2 b2 i j1 (1 <<< (d - 1)) hinv2 hv2 hi hj1
    h2 hpost2.target
  obtain ⟨b4, hb4⟩ := setFuel_total hinv3.1 hinv3.2.1 hi hj2 hd1 hd9
  have hpost4 := setFuel_post hinv3.1 hinv3.2.1 hi hj2 hd1 hd9 hb4
  have hinv4 : BInv b4 := setFuel_inv hinv3 hi hj2 hd1 hd9 hb4
  rw [SetB_eq hb4]
  have hmem : (i, j1) ∈ peerList i j2 := by
    rw [mem_peerList hi hj2]
    refine ⟨hi, hj1, ?_, Or.inl rfl⟩
    intro he
    injection he with _ e
    exact hj e
  have hdrop : isSetB (cellAt b4 i j1) d = false := hpost4.dropped (i, j1) hmem
  have hshr : subC (cellAt b4 i j1) (cellAt (List.foldl
      (fun b s => SetB b s.1 s.2.1 s.2.2) b2 s2) i j1) :=
    hpost4.shrink (i, j1) hi hj1 (by
      intro he
      injection he with _ e
      exact hj e)
  have hsub4 : subC (cellAt b4 i j1) (1 <<< (d - 1)) := subC_trans hshr hsub3
  have hc4 : cellAt b4 i j1 < 512 := hpost4.cwf i j1 hi hj1
  have hzero4 : cellAt b4 i j1 = 0 := by
    rcases subC_cases hc4 (by omega) hd1 hsub4 with he | he
    · rw [he] at hdrop
      have ht : isSetB (1 <<< (d - 1)) d = true :=
        (isSetB_shift d (by omega) d (by omega) hd1 hd1).mpr rfl
      rw [ht] at hdrop
      exact absurd hdrop (by simp)
    · exact he
  obtain ⟨hinv5, hsub5⟩ := foldl_keep_sub s3 b4 i j1 0 hinv4 hv3 hi hj1 h3
    (hzero4 ▸ subC_refl (cellAt b4 i j1))
  exact ⟨hinv5, subC_zero_eq (hinv5.2.1 i j1 hi hj1) hsub5⟩


theorem validSeeds_of_all {l : List (ℕ × ℕ × ℕ)}
    (h : l.all (fun s => decide (s.1 < 9 ∧ s.2.1 < 9 ∧ 1 ≤ s.2.2 ∧ s.2.2 ≤ 9)) = true) :
    validSeeds l :=
  fun s hs => of_decide_eq_true (List.all_eq_true.mp h s hs)

/-! ### Concrete data for claims C2, C6 and C10 -/

theorem emptyBoard_wf : wfB emptyBoard :=
  ⟨by simp [emptyBoard], fun i j hi hj => by rw [cellAt_empty hi hj]; omega⟩

/-- A seed sequence with two row-0 cells pre-assigned digit 1, where the
first duplicate cell is later re-assigned (so the contradiction heals). -/
def c6Seeds : List (ℕ × ℕ × ℕ) := [(0,0,1),(0,1,1),(3,0,1),(0,0,8)]

/-- The board after applying `c6Seeds` (checked by evaluation). -/
def c6Board : Board :=
  [128, 1, 382, 382, 382, 382, 382, 382, 382, 382, 382, 382, 511, 511, 511, 511,
   511, 511, 382, 382, 382, 511, 511, 511, 511, 511, 511, 1, 510, 510, 510, 510,
   510, 510, 510, 510, 382, 510, 510, 511, 511, 511, 511, 511, 511, 382, 510,
   510, 511, 511, 511, 511, 511, 511, 382, 510, 511, 511, 511, 511, 511, 511,
   511, 382, 510, 511, 511, 511, 511, 511, 511, 511, 382, 510, 511, 511, 511,
   511, 511, 511, 511]

/-- A complete valid grid admitted by `c6Board`. -/
def c6Grid : List ℕ :=
  [8, 1, 2, 3, 4, 5, 6, 7, 9, 3, 4, 5, 6, 7, 9, 1, 2, 8, 6, 7, 9, 1, 2, 8, 3, 4,
   5, 1, 2, 3, 4, 5, 6, 8, 9, 7, 4, 5, 6, 8, 9, 7, 2, 1, 3, 7, 9, 8, 2, 1, 3, 4,
   5, 6, 2, 3, 7, 5, 6, 1, 9, 8, 4, 5, 6, 1, 9, 8, 4, 7, 3, 2, 9, 8, 4, 7, 3, 2,
   5, 6, 1]

/-- Full board except that cells (0,1) and (0,2) hold exactly {1,3}: assigning
1 to (0,0) then cascades and empties (0,0) again. -/
def cascadeBoard : Board := ((List.replicate 81 511).set 1 5).set 2 5

/-- The board produced by a single `Set(0,0,1)` on the empty board. -/
def oneSetBoard : Board :=
  [1, 510, 510, 510, 510, 510, 510, 510, 510, 510, 510, 510, 511, 511, 511, 511,
   511, 511, 510, 510, 510, 511, 511, 511, 511, 511, 511, 510, 511, 511, 511,
   511, 511, 511, 511, 511, 510, 511, 511, 511, 511, 511, 511, 511, 511, 510,
   511, 511, 511, 511, 511, 511, 511, 511, 510, 511, 511, 511, 511, 511, 511,
   511, 511, 510, 511, 511, 511, 511, 511, 511, 511, 511, 510, 511, 511, 511,
   511, 511, 511, 511, 511]

/-- A solved grid in bitmask form with cell (0,0) emptied: `Lowest` finds no
cell, `Solved` is false, so `Solve` returns false immediately. -/
def stuckBoard : Board :=
  [0, 1, 2, 64, 16, 4, 32, 8, 256, 256, 8, 4, 32, 128, 2, 1, 64, 16, 32, 64, 16,
   8, 256, 1, 2, 128, 4, 1, 16, 8, 2, 4, 64, 128, 256, 32, 4, 32, 256, 128, 8,
   16, 64, 2, 1, 2, 128, 64, 1, 32, 256, 16, 4, 8, 16, 2, 1, 256, 64, 8, 4, 32,
   128, 8, 4, 128, 16, 2, 32, 256, 1, 64, 64, 256, 32, 4, 1, 128, 8, 16, 2]

/-! ### The ten claims -/

/-- C1: `Board.Set(i,j,d)` first replaces the candidate set of `(i,j)` with
exactly `{d}` and then, for each row, column and box peer that allows `d`,
removes `d` and recursively resolves the peer when one candidate remains,
cascading outward; no contradiction is signalled (both sides return a board
unconditionally when the fuel suffices).  Formally the source embedding
`setFuel` is extensionally equal, at every fuel, to the spec-worded
`assignSpec` on well-formed inputs. -/
theorem set_matches_spec_assignment : ∀ n b i j d, wfB b → i < 9 → j < 9 →
    1 ≤ d → d ≤ 9 → setFuel n b i j d = assignSpec n b i j d := by
  intro n b i j d hwf hi hj hd1 hd9
  exact setFuel_eq_assignSpec n b i j d hwf.1 hwf.2 hi hj hd1 hd9

theorem set_matches_spec_assignment_witness :
    wfB emptyBoard ∧ (0 : ℕ) < 9 ∧ (1 : ℕ) ≤ 1 ∧ (1 : ℕ) ≤ 9 ∧
    setFuel 730 emptyBoard 0 0 1 = assignSpec 730 emptyBoard 0 0 1 :=
  ⟨emptyBoard_wf, by omega, by omega, by omega,
   set_matches_spec_assignment 730 emptyBoard 0 0 1 emptyBoard_wf (by omega)
     (by omega) (by omega) (by omega)⟩

/-- C2: if `Solve` returns false, the board after the call equals the board
before it, cell for cell; in particular the `Single` cells afterwards are
exactly those before the call (for a top-level call: those of the seed
propagation closure). -/
theorem solve_false_restores : ∀ n b b', solveFuel n b = some (false, b') →
    b' = b ∧ ∀ p : ℕ × ℕ, singleB (cellAt b' p.1 p.2) = singleB (cellAt b p.1 p.2) := by
  intro n b b' h
  have he := solveFuel_restore n b b' h
  exact ⟨he, fun p => by rw [he]⟩

theorem solve_false_restores_witness :
    solveFuel 1 stuckBoard = some (false, stuckBoard) ∧
    stuckBoard = stuckBoard ∧
    ∀ p : ℕ × ℕ, singleB (cellAt stuckBoard p.1 p.2) = singleB (cellAt stuckBoard p.1 p.2) :=
  ⟨by decide, solve_false_restores 1 stuckBoard stuckBoard (by decide)⟩

/-- C3: after any sequence of in-range `Set` assignments applied to the empty
board, no two distinct peers (same row, column or box) are both `Single` with
the same digit. -/
theorem set_sequence_no_peer_dup : ∀ seeds, validSeeds seeds →
    noPeerDup (applySeeds seeds) := by
  intro seeds hv
  have hinv := applySeeds_inv hv
  exact propagated_noPeerDup hinv.2.1 hinv.2.2

theorem set_sequence_no_peer_dup_witness :
    validSeeds hardSeeds ∧ noPeerDup (applySeeds hardSeeds) :=
  ⟨validSeeds_of_all (by decide),
   set_sequence_no_peer_dup hardSeeds (validSeeds_of_all (by decide))⟩

/-- C4: on a well-formed board, `Lowest` returns `none` exactly when no cell
has more than one candidate (zero-candidate cells are excluded), and when it
returns a cell, that cell has the minimal candidate count strictly above one,
with ties broken by the first such cell in row-major order. -/
theorem lowest_first_minimal : ∀ b : Board,
    (∀ i j, i < 9 → j < 9 → cellAt b i j < 512) →
    (lowestF b = none ↔ ∀ p : ℕ × ℕ, p.1 < 9 → p.2 < 9 →
      countC (cellAt b p.1 p.2) ≤ 1) ∧
    ∀ i j, lowestF b = some (i, j) → i < 9 ∧ j < 9 ∧ 1 < countC (cellAt b i j) ∧
      (∀ p q, p < 9 → q < 9 → 1 < countC (cellAt b p q) →
        countC (cellAt b i j) ≤ countC (cellAt b p q)) ∧
      (∀ p q, p < 9 → q < 9 → lexLT (p, q) (i, j) →
        ¬(1 < countC (cellAt b p q) ∧ countC (cellAt b p q) ≤ countC (cellAt b i j))) := by
  intro b hc
  exact ⟨lowestF_none_char hc, fun i j h => lowestF_some_char hc h⟩

theorem lowest_first_minimal_witness :
    (∀ i j, i < 9 → j < 9 → cellAt emptyBoard i j < 512) ∧
    ((lowestF emptyBoard = none ↔ ∀ p : ℕ × ℕ, p.1 < 9 → p.2 < 9 →
      countC (cellAt emptyBoard p.1 p.2) ≤ 1) ∧
    ∀ i j, lowestF emptyBoard = some (i, j) → i < 9 ∧ j < 9 ∧
      1 < countC (cellAt emptyBoard i j) ∧
      (∀ p q, p < 9 → q < 9 → 1 < countC (cellAt emptyBoard p q) →
        countC (cellAt emptyBoard i j) ≤ countC (cellAt emptyBoard p q)) ∧
      (∀ p q, p < 9 → q < 9 → lexLT (p, q) (i, j) →
        ¬(1 < countC (cellAt emptyBoard p q) ∧
          countC (cellAt emptyBoard p q) ≤ countC (cellAt emptyBoard i j)))) := by
  have hc : ∀ i j, i < 9 → j < 9 → cellAt emptyBoard i j < 512 := fun i j hi hj => by
    rw [cellAt_empty hi hj]
    omega
  exact ⟨hc, lowest_first_minimal emptyBoard hc⟩

/-- C5: applying the 21 hardcoded seeds of `main` to the empty board and
solving succeeds: `Solve` returns true and the final board is solved and a
valid sudoku grid (each digit exactly once per row, column and box). -/
theorem solve_hard_puzzle : ∃ b', solveFuel 82 (applySeeds hardSeeds) =
    some (true, b') ∧ solvedB b' = true ∧ validB b' := by
  have hvs : validSeeds hardSeeds := validSeeds_of_all (by decide)
  have hinv := applySeeds_inv hvs
  have hadm : admits (gridF solGrid) (applySeeds hardSeeds) := by
    simp only [applySeeds]
    exact foldSeeds_admits hardSeeds emptyBoard (gridF solGrid) solGrid_valid
      emptyBoard_inv hvs hardSeeds_match (admits_empty solGrid_valid.1)
  obtain ⟨b', hb'⟩ := solveFuel_complete 82 (applySeeds hardSeeds) (gridF solGrid)
    hinv solGrid_valid hadm (by have := unres_le_81 (applySeeds hardSeeds); omega)
  have hsolved := solveFuel_sound 82 (applySeeds hardSeeds) b' hb'
  have hinv' := solveFuel_inv 82 (applySeeds hardSeeds) true b' hinv hb'
  exact ⟨b', hb', hsolved, validB_of_solved hinv'.2.1 hinv'.2.2 hsolved⟩

/-- C6 (counterexample): the original claim fails.  `c6Seeds` pre-assigns
digit 1 to both (0,0) and (0,1) in row 0, yet `Solve` returns true, because
the fourth seed re-assigns (0,0) and heals the contradiction. -/
theorem dup_row_seed_solve_true :
    validSeeds c6Seeds ∧ (0, 0, 1) ∈ c6Seeds ∧ (0, 1, 1) ∈ c6Seeds ∧
    (0 : ℕ) ≠ 1 ∧ ∃ b', solveFuel 82 (applySeeds c6Seeds) = some (true, b') := by
  have hvs : validSeeds c6Seeds := validSeeds_of_all (by decide)
  have hinv := applySeeds_inv hvs
  have heqb : applySeeds c6Seeds = c6Board := by decide
  have hval : ValidG (gridF c6Grid) := gridF_valid (by decide) (by decide)
  have hadm : admits (gridF c6Grid) (applySeeds c6Seeds) := by
    rw [heqb]
    intro p hp1 hp2
    exact List.all_eq_true.mp
      (by decide : allPos.all
        (fun p => isSetB (cellAt c6Board p.1 p.2) (gridF c6Grid p)) = true)
      p (mem_allPos.mpr ⟨hp1, hp2⟩)
  obtain ⟨b', hb'⟩ := solveFuel_complete 82 (applySeeds c6Seeds) (gridF c6Grid)
    hinv hval hadm (by have := unres_le_81 (applySeeds c6Seeds); omega)
  exact ⟨hvs, by decide, by decide, by decide, b', hb'⟩

/-- C6 (amended): if two distinct cells of one row are pre-assigned the same
digit and no later seed re-assigns the first of the two cells, then `Solve`
returns false: the first cell's candidate set is empty from the second
duplicate assignment on, so the board can never be solved. -/
theorem dup_row_seed_solve_false : ∀ (s1 s2 s3 : List (ℕ × ℕ × ℕ)) (i j1 j2 d : ℕ),
    validSeeds (s1 ++ ((i, j1, d) :: (s2 ++ ((i, j2, d) :: s3)))) → j1 ≠ j2 →
    (∀ s ∈ s2, (s.1, s.2.1) ≠ (i, j1)) → (∀ s ∈ s3, (s.1, s.2.1) ≠ (i, j1)) →
    (∀ n r b', solveFuel n
        (applySeeds (s1 ++ ((i, j1, d) :: (s2 ++ ((i, j2, d) :: s3))))) =
        some (r, b') → r = false) ∧
    ∃ b', solveFuel 82
        (applySeeds (s1 ++ ((i, j1, d) :: (s2 ++ ((i, j2, d) :: s3))))) =
        some (false, b') := by
  intro s1 s2 s3 i j1 j2 d hv hj h2 h3
  obtain ⟨hv1, hvr⟩ := validSeeds_append hv
  obtain ⟨hx, hvr2⟩ := validSeeds_cons hvr
  have hi : i < 9 := hx.1
  have hj1 : j1 < 9 := hx.2.1
  obtain ⟨hinv, hzero⟩ := dupRow_empty hv hj h2 h3
  have hfalse : ∀ n r b', solveFuel n
      (applySeeds (s1 ++ ((i, j1, d) :: (s2 ++ ((i, j2, d) :: s3))))) =
      some (r, b') → r = false :=
    fun n r b' heq => solveFuel_stuck n _ i j1 r b' hinv hi hj1 hzero heq
  obtain ⟨r, b', hr⟩ := solveFuel_total 82 _ hinv
    (by have := unres_le_81
          (applySeeds (s1 ++ ((i, j1, d) :: (s2 ++ ((i, j2, d) :: s3)))))
        omega)
  have := hfalse 82 r b' hr
  subst this
  exact ⟨hfalse, b', hr⟩

theorem dup_row_seed_solve_false_witness :
    validSeeds ([] ++ (((0, 0, 1) : ℕ × ℕ × ℕ) :: ([] ++ ((0, 1, 1) :: [])))) ∧
    (0 : ℕ) ≠ 1 ∧
    (∀ s ∈ ([] : List (ℕ × ℕ × ℕ)), (s.1, s.2.1) ≠ ((0 : ℕ), (0 : ℕ))) ∧
    ((∀ n r b', solveFuel n
        (applySeeds ([] ++ (((0, 0, 1) : ℕ × ℕ × ℕ) :: ([] ++ ((0, 1, 1) :: []))))) =
        some (r, b') → r = false) ∧
    ∃ b', solveFuel 82
        (applySeeds ([] ++ (((0, 0, 1) : ℕ × ℕ × ℕ) :: ([] ++ ((0, 1, 1) :: []))))) =
        some (false, b')) := by
  refine ⟨validSeeds_of_all (by decide), by decide, by decide, ?_⟩
  exact dup_row_seed_solve_false [] [] [] 0 0 1 1 (validSeeds_of_all (by decide))
    (by decide) (by decide) (by decide)

/-- C7: the solver terminates on every well-formed, propagated board: fuel 730
always suffices for the propagation recursion of `Set`, the number of
unresolved cells is at most 81, and fuel `unres b + 1` (depth bounded by the
number of unresolved cells) suffices for the guessing recursion of `Solve`. -/
theorem solver_terminates : ∀ b, BInv b →
    (∀ i j d, i < 9 → j < 9 → 1 ≤ d → d ≤ 9 → ∃ b', setFuel 730 b i j d = some b') ∧
    unres b ≤ 81 ∧ ∃ r b', solveFuel (unres b + 1) b = some (r, b') := by
  intro b hinv
  exact ⟨fun i j d hi hj hd1 hd9 => setFuel_total hinv.1 hinv.2.1 hi hj hd1 hd9,
    unres_le_81 b, solveFuel_total (unres b + 1) b hinv (by omega)⟩

theorem solver_terminates_witness :
    BInv emptyBoard ∧
    ((∀ i j d, i < 9 → j < 9 → 1 ≤ d → d ≤ 9 →
      ∃ b', setFuel 730 emptyBoard i j d = some b') ∧
    unres emptyBoard ≤ 81 ∧
    ∃ r b', solveFuel (unres emptyBoard + 1) emptyBoard = some (r, b')) :=
  ⟨emptyBoard_inv, solver_terminates emptyBoard emptyBoard_inv⟩

/-- C8: for every cell value (a 9-bit candidate mask; every cell the program
constructs is one, by the `cwf` invariants), `Digits` yields exactly the
digits whose `IsSet` test is true, in strictly ascending order; the sequence
is finite (a list here) and, the embedding being pure like the Go iterator
(which operates on a value receiver), re-invocation trivially yields the same
sequence. -/
theorem digits_ascending_isSet : ∀ c < 512,
    digitsL c = (List.range' 1 16).filter (fun d => isSetB c d) ∧
    List.Pairwise (· < ·) (digitsL c) := by decide

theorem digits_ascending_isSet_witness :
    (273 : ℕ) < 512 ∧
    (digitsL 273 = (List.range' 1 16).filter (fun d => isSetB 273 d) ∧
    List.Pairwise (· < ·) (digitsL 273)) :=
  ⟨by decide, digits_ascending_isSet 273 (by decide)⟩

/-- C9: for every cell value (a 9-bit candidate mask), `Single` is true iff
`Count` equals one (exactly one pencil mark, hence a non-empty candidate
set). -/
theorem single_iff_count_one : ∀ c < 512, (singleB c = true ↔ countC c = 1) := by
  decide

theorem single_iff_count_one_witness :
    (4 : ℕ) < 512 ∧ (singleB 4 = true ↔ countC 4 = 1) :=
  ⟨by decide, single_iff_count_one 4 (by decide)⟩

/-- C10: after `Set(i,j,d)` the target cell holds a subset of `{d}`: either
exactly the singleton mask of `d` or the empty set; the second disjunct is
realized by `cascadeBoard`, where the propagation cascade of `Set(0,0,1)`
resolves a peer to 1 and removes 1 from (0,0) again, so `Set` does not
guarantee the target ends up `Single`. -/
theorem set_target_subset :
    (∀ b i j d b', wfB b → i < 9 → j < 9 → 1 ≤ d → d ≤ 9 →
      setFuel 730 b i j d = some b' →
      cellAt b' i j = 1 <<< (d - 1) ∨ cellAt b' i j = 0) ∧
    cellAt (SetB cascadeBoard 0 0 1) 0 0 = 0 := by
  constructor
  · intro b i j d b' hwf hi hj hd1 hd9 heq
    have hpost := setFuel_post hwf.1 hwf.2 hi hj hd1 hd9 heq
    exact subC_cases (hpost.cwf i j hi hj) (by omega) hd1 hpost.target
  · decide

theorem set_target_subset_witness :
    wfB emptyBoard ∧ setFuel 730 emptyBoard 0 0 1 = some oneSetBoard ∧
    (cellAt oneSetBoard 0 0 = 1 <<< (1 - 1) ∨ cellAt oneSetBoard 0 0 = 0) :=
  ⟨emptyBoard_wf, by decide,
   set_target_subset.1 emptyBoard 0 0 1 oneSetBoard emptyBoard_wf (by omega)
     (by omega) (by omega) (by omega) (by decide)⟩

